import Mathlib

/-!
Verification of the inline HTML editor core (`app.js`, final variant: the
code up to the first `app.listen`).  Strings are modelled as `List Char`;
documents as `List (List Char)` (the result of `content.split('\n')`).
All definitions are executable and translated directly from the source.
-/

set_option maxRecDepth 10000

namespace InlineEditor

/-- One character of JavaScript `\s` (ASCII portion; every character
occurring in this development is ASCII). -/
def isWsChar (c : Char) : Bool :=
  c = ' ' || c = '\t' || c = '\n' || c = '\r' || c = '\x0b' || c = '\x0c'

def isAlphaChar (c : Char) : Bool :=
  ('a' ≤ c && c ≤ 'z') || ('A' ≤ c && c ≤ 'Z')

def isDigitChar (c : Char) : Bool :=
  '0' ≤ c && c ≤ '9'

def isAlnumChar (c : Char) : Bool :=
  isAlphaChar c || isDigitChar c

/-- JavaScript regex `\w` class, used for `\b` word boundaries. -/
def isWordChar (c : Char) : Bool :=
  isAlnumChar c || c = '_'

/-- ASCII lower-casing, the fragment of `String.prototype.toLowerCase`
and of the regex `i` flag exercised by the editor. -/
def lowerC (c : Char) : Char :=
  if 'A' ≤ c ∧ c ≤ 'Z' then Char.ofNat (c.toNat + 32) else c

def lowerS (s : List Char) : List Char := s.map lowerC

/-- `String(n)` for a natural number: decimal digits, most significant first. -/
def digitChar (n : Nat) : Char :=
  match n with
  | 0 => '0' | 1 => '1' | 2 => '2' | 3 => '3' | 4 => '4'
  | 5 => '5' | 6 => '6' | 7 => '7' | 8 => '8' | 9 => '9'
  | _ => '*'

def natCharsAux : Nat → Nat → List Char
  | 0, _ => []
  | f + 1, n => if n < 10 then [digitChar n] else natCharsAux f (n / 10) ++ [digitChar (n % 10)]

def natChars (n : Nat) : List Char := natCharsAux (n + 1) n

/-- `s.indexOf(pat)` (case-sensitive first occurrence), `none` for `-1`. -/
def indexOfSub : List Char → List Char → Option Nat
  | [], pat => if pat = [] then some 0 else none
  | c :: cs, pat =>
    if pat.isPrefixOf (c :: cs) then some 0
    else (indexOfSub cs pat).map (· + 1)

/-- `s.indexOf(ch)` for a single character. -/
def indexOfChar (s : List Char) (ch : Char) : Option Nat := indexOfSub s [ch]

/-- `s.lastIndexOf(pat)` (case-sensitive last occurrence), `none` for `-1`. -/
def lastIndexOfSub (s pat : List Char) : Option Nat :=
  ((List.range (s.length + 1)).filter (fun i => pat.isPrefixOf (s.drop i))).getLast?

/-- First case-insensitive occurrence of `pat` in `s`; this is both the
index of the first match of an `i`-flagged literal regex and the value of
`s.indexOf(match[0])` for that match. -/
def ciIndexOfSub (s pat : List Char) : Option Nat := indexOfSub (lowerS s) (lowerS pat)

/-- Option-returning index converted to the JavaScript `-1` convention. -/
def idxToJs (o : Option Nat) : Int :=
  match o with
  | none => -1
  | some k => (k : Int)

/-- `s.substring(a, b)`: clamps both arguments to `[0, length]` and swaps
them when `a > b`. -/
def jsSubstring (s : List Char) (a b : Int) : List Char :=
  let n := s.length
  let a2 := min (max a 0).toNat n
  let b2 := min (max b 0).toNat n
  (s.take (max a2 b2)).drop (min a2 b2)

/-- `l.slice(a, b)` for lists (as used with in-range arguments). -/
def jsSlice (l : List (List Char)) (a b : Nat) : List (List Char) :=
  (l.take b).drop a

/-- `l.splice(start, count, repl)` restricted to replacing a range by
fresh elements. -/
def spliceList (l : List (List Char)) (start count : Nat) (repl : List (List Char)) :
    List (List Char) :=
  l.take start ++ repl ++ l.drop (start + count)

/-- `content.split('\n')` (JavaScript semantics: `"".split` gives `[""]`). -/
def splitNl : List Char → List (List Char)
  | [] => [[]]
  | c :: cs =>
    if c = '\n' then [] :: splitNl cs
    else
      match splitNl cs with
      | [] => [[c]]
      | h :: t => (c :: h) :: t

/-- `lines.join('\n')`. -/
def joinNl : List (List Char) → List Char
  | [] => []
  | [l] => l
  | l :: ls => l ++ '\n' :: joinNl ls

/-- Does `pat` occur as a contiguous substring of `s`?  (Boolean, the shape
`String.prototype.includes` decides.) -/
def occursB (pat : List Char) : List Char → Bool
  | [] => pat.isPrefixOf []
  | c :: cs => pat.isPrefixOf (c :: cs) || occursB pat cs

/-! ### Content sanitizer: `removeEditorAttributes` (app.js 260-265)

The two regexes `\s*data-line="[^"]*"` and `\s*contenteditable="[^"]*"`
are of the same shape: an (optional) whitespace run, a literal ending in
an opening quote, the quoted body, a closing quote.  A global replace by
the empty string is modelled by a left-to-right scanner. -/

def litDL : List Char := ['d', 'a', 't', 'a', '-', 'l', 'i', 'n', 'e', '=', '"']

def litCE : List Char :=
  ['c', 'o', 'n', 't', 'e', 'n', 't', 'e', 'd', 'i', 't', 'a', 'b', 'l', 'e', '=', '"']

/-- Drop an exact literal from the front, or fail. -/
def dropLit : List Char → List Char → Option (List Char)
  | [], s => some s
  | _ :: _, [] => none
  | p :: ps, c :: cs => if c = p then dropLit ps cs else none

/-- Consume `[^"]*"`: everything up to and including the next quote. -/
def scanQuote : List Char → Option (List Char)
  | [] => none
  | c :: cs => if c = '"' then some cs else scanQuote cs

/-- Does the regex `\s*LIT[^"]*"` match at the start of `s`?  If so return
the remainder after the match.  (Backtracking collapses: the characters of
`LIT` are not whitespace, so the whitespace run is forced to be maximal.) -/
def tryAttr (lit s : List Char) : Option (List Char) :=
  match dropLit lit (s.dropWhile isWsChar) with
  | none => none
  | some r => scanQuote r

/-- Fuelled global-replace-by-empty scanner for `\s*LIT[^"]*"`. -/
def remAttr (lit : List Char) : Nat → List Char → List Char
  | _, [] => []
  | 0, s => s
  | f + 1, c :: cs =>
    match tryAttr lit (c :: cs) with
    | some r => remAttr lit f r
    | none => c :: remAttr lit f cs

def removeDL (s : List Char) : List Char := remAttr litDL s.length s

def removeCE (s : List Char) : List Char := remAttr litCE s.length s

/-- `removeEditorAttributes` (app.js 260-265): strips all
`data-line="…"` then all `contenteditable="…"` attributes together with
the whitespace run preceding each; the falsy guard returns empty content
unchanged. -/
def removeEditorAttributes (s : List Char) : List Char :=
  if s = [] then s else removeCE (removeDL s)

example : removeEditorAttributes ("<p data-line=\"3\" contenteditable=\"true\">x</p>".toList)
    = ("<p>x</p>".toList) := by decide

example : removeEditorAttributes ("<li data-line=\"12\">ab</li>".toList)
    = ("<li>ab</li>".toList) := by decide

/-! ### Line marker indexer: `injectLineNumbers` (app.js 162-209) -/

/-- Tags excluded from marker injection (app.js 168-173). -/
def excludedTags : List (List Char) :=
  ["html", "head", "body", "script", "style", "meta", "link", "title", "!doctype",
   "div", "span", "ul", "ol", "dl", "table", "thead", "tbody", "tfoot", "tr",
   "colgroup", "caption", "select", "optgroup", "datalist", "fieldset", "form",
   "nav", "main", "section", "article", "aside", "header", "footer", "figure",
   "details", "summary", "br", "hr"].map String.toList

/-- First match of `/<([a-zA-Z][a-zA-Z0-9]*)/`: the captured tag name. -/
def firstTagMatch : List Char → Option (List Char)
  | [] => none
  | c :: cs =>
    if c = '<' then
      match cs with
      | [] => none
      | d :: ds => if isAlphaChar d then some (d :: ds.takeWhile isAlnumChar) else firstTagMatch cs
    else firstTagMatch cs

/-- The injected marker text `' data-line="N"'`. -/
def injText (n : Nat) : List Char := ' ' :: litDL ++ natChars n ++ ['"']

/-- One iteration of the `injectLineNumbers` loop on a line (line numbers
are 1-based). -/
def injectLine (n : Nat) (line : List Char) : List Char :=
  if occursB ("data-line=".toList) line then line
  else
    match firstTagMatch line with
    | none => line
    | some tagName =>
      if lowerS tagName ∈ excludedTags then line
      else
        match indexOfSub line ('<' :: tagName) with
        | none => line
        | some tagStart =>
          let insertPos := tagStart + 1 + tagName.length
          let charAfterTag := (line.drop insertPos).head?
          if charAfterTag = none ∨ charAfterTag = some ' ' ∨ charAfterTag = some '>'
              ∨ charAfterTag = some '\t' ∨ charAfterTag = some '\n' then
            line.take insertPos ++ injText n ++ line.drop insertPos
          else line

def injectAll : Nat → List (List Char) → List (List Char)
  | _, [] => []
  | n, l :: ls => injectLine n l :: injectAll (n + 1) ls

/-- `injectLineNumbers` (app.js 162-209). -/
def injectLineNumbers (content : List Char) : List Char :=
  joinNl (injectAll 1 (splitNl content))

example : injectLineNumbers ("<p>a</p>\n<div>b</div>\n<li>c".toList)
    = ("<p data-line=\"1\">a</p>\n<div>b</div>\n<li data-line=\"3\">c".toList) := by decide

/-! ### Region locator: `findClosingTagLocation` (app.js 218-253) -/

/-- Shared body of the matcher: `body` is what follows `<` (opening) or
`</` (closing).  The tag name must follow case-insensitively, and the `\b`
boundary compares the word-character class of the last matched character
with that of the following character (end of input counts as non-word). -/
def tagMatchCore (tag body : List Char) (cl : Bool) : Option (Bool × Nat) :=
  let lastC := tag.getLastD (if cl then '/' else '<')
  let nextWord : Bool :=
    match (body.drop tag.length).head? with
    | some c => isWordChar c
    | none => false
  if (lowerS tag).isPrefixOf (lowerS body) ∧ isWordChar lastC ≠ nextWord then
    some (cl, 1 + (if cl then 1 else 0) + tag.length)
  else none

/-- Does the regex `<\/?tagName\b` (with the `i` flag) match at the start
of `s`?  Returns `(isClosing, matchLength)`.  The optional `\/?` is
greedy, so a `/` after `<` is always consumed as part of a closing tag. -/
def tagMatchAt (tag s : List Char) : Option (Bool × Nat) :=
  match s with
  | '<' :: '/' :: body => tagMatchCore tag body true
  | '<' :: body => tagMatchCore tag body false
  | _ => none

/-- All matches of the `g`-flagged regex in `s` (a line suffix), with
absolute column indices starting at `idx`; the scan resumes after the end
of each match, as `RegExp.exec` does. -/
def scanIdx (tag : List Char) : Nat → List Char → Nat → List (Nat × Bool)
  | 0, _, _ => []
  | _, [], _ => []
  | f + 1, c :: cs, idx =>
    match tagMatchAt tag (c :: cs) with
    | some (cl, len) => (idx, cl) :: scanIdx tag f ((c :: cs).drop len) (idx + len)
    | none => scanIdx tag f cs (idx + 1)

/-- Matches of `<\/?tagName\b` in `line` at columns `≥ sp`, in order. -/
def scanFrom (tag line : List Char) (sp : Nat) : List (Nat × Bool) :=
  scanIdx tag (line.length) (line.drop sp) sp

/-- The inner `while ((match = regex.exec(...)))` loop: update the depth
counter over one line's matches; `Sum.inr` is the early `return`. -/
def stepLine : List (Nat × Bool) → Int → Int ⊕ Nat
  | [], d => Sum.inl d
  | (i, cl) :: rest, d =>
    if cl then
      if d - 1 = 0 then Sum.inr i else stepLine rest (d - 1)
    else stepLine rest (d + 1)

/-- The outer `while (currentLineIndex < lines.length)` loop. -/
def fctGo (tag : List Char) : List (List Char) → Nat → Int → Nat → Option (Nat × Nat)
  | [], _, _, _ => none
  | l :: ls, li, d, sp =>
    match stepLine (scanFrom tag l sp) d with
    | Sum.inr i => some (li, i)
    | Sum.inl d2 => fctGo tag ls (li + 1) d2 0

/-- `findClosingTagLocation(lines, startLineIndex, tagName)`
(app.js 218-253): result `(lineIndex, index)`, `none` for `null`.  The
seed `scanPos` is the *case-sensitive* `indexOf('<' + tagName)` on the
start line. -/
def findClosingTagLocation (lines : List (List Char)) (startLineIndex : Nat)
    (tagName : List Char) : Option (Nat × Nat) :=
  match indexOfSub (lines.getD startLineIndex []) ('<' :: tagName) with
  | none => none
  | some scanPos => fctGo tagName (lines.drop startLineIndex) startLineIndex 0 scanPos

example : findClosingTagLocation ["<ul><li><ul><li>a</li></ul></li></ul>".toList] 0
    ("li".toList) = some (0, 27) := by decide

example : findClosingTagLocation ["<li>x".toList, "</LI>".toList] 0 ("li".toList)
    = some (1, 0) := by decide

example : findClosingTagLocation ["<LI>a</LI>".toList] 0 ("li".toList) = none := by decide

example : findClosingTagLocation ["<li><link></li>".toList] 0 ("li".toList)
    = some (0, 10) := by decide

/-! ### Replacement engine: `replaceSingleLine` (app.js 268-366) -/

/-- Does the `i`-flagged regex `<(?!br\s*\/?>)[^>]+>` match at the start of
`s`?  The lookahead accepts an explicit line-break tag `br`, optionally
self-closed. -/
def brAhead (s : List Char) : Bool :=
  match s with
  | b :: r :: rest =>
    if lowerC b = 'b' ∧ lowerC r = 'r' then
      match rest.dropWhile isWsChar with
      | '/' :: '>' :: _ => true
      | '>' :: _ => true
      | _ => false
    else false
  | _ => false

def otherTagAt (s : List Char) : Bool :=
  match s with
  | '<' :: rest =>
    !brAhead rest &&
      (match indexOfChar rest '>' with
       | some j => decide (1 ≤ j)
       | none => false)
  | _ => false

/-- `/<(?!br\s*\/?>)[^>]+>/i.test(content)` (app.js 305): is there a tag
other than a line break anywhere in `content`? -/
def hasOtherTags : List Char → Bool
  | [] => false
  | c :: cs => otherTagAt (c :: cs) || hasOtherTags cs

/-- The object returned by `replaceSingleLine`: `lines`, `originalLine`
(`none` for `null`), and the multiline fields (absent fields modelled by
`isMultiline = false` and zero bounds). -/
structure ReplaceResult where
  lines : List (List Char)
  originalLine : Option (List Char)
  isMultiline : Bool
  startLineIndex : Nat
  endLineIndex : Nat
  deriving DecidableEq

/-- `replaceSingleLine(lines, lineIndex, newContent)` (app.js 268-366). -/
def replaceSingleLine (lines : List (List Char)) (lineIndex : Nat)
    (newContent : List Char) : ReplaceResult :=
  let line := lines.getD lineIndex []
  match firstTagMatch line with
  | none => ⟨lines, none, false, 0, 0⟩
  | some tagName =>
    match indexOfChar line '>' with
    | none => ⟨lines, none, false, 0, 0⟩
    | some openTagEnd =>
      match ciIndexOfSub line ('<' :: '/' :: tagName ++ ['>']) with
      | some closeTagIndex =>
        let before := line.take (openTagEnd + 1)
        let after := line.drop closeTagIndex
        let cleanedContent := removeEditorAttributes newContent
        ⟨lines.set lineIndex (before ++ cleanedContent ++ after), some line, false, 0, 0⟩
      | none =>
        let closingLoc := findClosingTagLocation lines lineIndex tagName
        let endLineIndex := match closingLoc with
          | some loc => loc.1
          | none => lineIndex
        let deferred : ReplaceResult := ⟨lines, none, true, lineIndex, endLineIndex⟩
        if (lowerS tagName = "li".toList ∨ lowerS tagName = "td".toList) ∧ closingLoc ≠ none then
          let fullContent := joinNl (jsSlice lines lineIndex (endLineIndex + 1))
          let contentBetweenTags := jsSubstring fullContent
            (idxToJs (indexOfChar fullContent '>') + 1)
            (idxToJs (lastIndexOfSub fullContent ('<' :: '/' :: tagName ++ ['>'])))
          if hasOtherTags contentBetweenTags then deferred
          else
            let indent := line.takeWhile isWsChar
            let before := line.take (openTagEnd + 1)
            let cleanedContent := removeEditorAttributes newContent
            let newLine := indent ++ before ++ cleanedContent ++ '<' :: '/' :: tagName ++ ['>']
            ⟨spliceList lines lineIndex (endLineIndex - lineIndex + 1) [newLine],
              some line, false, 0, 0⟩
        else deferred

example : replaceSingleLine ["<li>A</li>".toList, "<li>B</li>".toList] 0 ("C".toList)
    = ⟨["<li>C</li>".toList, "<li>B</li>".toList], some ("<li>A</li>".toList), false, 0, 0⟩ := by
  decide

example : replaceSingleLine ["<b>old</b>".toList] 0 ("new".toList)
    = ⟨["<b>new</b>".toList], some ("<b>old</b>".toList), false, 0, 0⟩ := by decide

example : replaceSingleLine [" <li>".toList, "a".toList, " </li>".toList] 0 ("X".toList)
    = ⟨["  <li>X</li>".toList], some (" <li>".toList), false, 0, 0⟩ := by decide

example : replaceSingleLine ["<ul>".toList, "<li><b>a</b>".toList, "</li>".toList,
      "</ul>".toList] 1 ("x".toList)
    = ⟨["<ul>".toList, "<li><b>a</b>".toList, "</li>".toList, "</ul>".toList],
        none, true, 1, 2⟩ := by decide

/-! ### Version chain: `reconstructContent` (app.js 1119-1151)

A day-bucket directory is modelled by the base snapshot (`00_first`,
`none` when the file is absent), and the list of `NN_diff.json` files in
filename order, each carrying its parsed number and either the parsed
record or `none` when reading/parsing it throws. -/

structure DiffRecord where
  lineNumber : Int
  before : List Char
  after : List Char
  deriving DecidableEq

/-- The body of the `for (const diffFile of diffFiles)` loop applied to one
successfully parsed record: skipped when `after` is falsy (empty) or the
line index is out of range of the current content. -/
def applyDiff (content : List Char) (d : DiffRecord) : List Char :=
  if d.after ≠ [] then
    let lines := splitNl content
    let lineIdx := d.lineNumber - 1
    if 0 ≤ lineIdx ∧ lineIdx < (lines.length : Int) then
      joinNl (lines.set lineIdx.toNat d.after)
    else content
  else content

/-- Is `num > targetNum`, where `none` stands for the default `Infinity`? -/
def numGT (num : Nat) (target : Option Nat) : Bool :=
  match target with
  | none => false
  | some t => num > t

/-- The diff-replay loop of `reconstructContent`: `break` both on
`num > targetNum` and on a record that fails to read or parse. -/
def replay (content : List Char) : List (Nat × Option DiffRecord) → Option Nat → List Char
  | [], _ => content
  | (num, rec?) :: rest, target =>
    if numGT num target then content
    else
      match rec? with
      | none => content
      | some d => replay (applyDiff content d) rest target

/-- `reconstructContent(backupFolderName, dateFolder, ext, targetNum)`
(app.js 1119-1151): `none` models the `null` returned when `00_first` is
absent. -/
def reconstructContent (first : Option (List Char))
    (diffs : List (Nat × Option DiffRecord)) (target : Option Nat) : Option (List Char) :=
  match first with
  | none => none
  | some content => some (replay content diffs target)

example : reconstructContent (some ("a\nb".toList))
    [(1, some ⟨2, "b".toList, "B".toList⟩)] none = some ("a\nB".toList) := by decide

example : reconstructContent (some ("a\nb".toList))
    [(1, some ⟨1, "a".toList, [] ⟩)] none = some ("a\nb".toList) := by decide

/-! ### Undo stack (app.js 869-877 and 1069-1116) -/

/-- `if (history.length >= 20) history.shift(); history.push(entry)`. -/
def historyPush {α : Type} (h : List α) (e : α) : List α :=
  (if h.length ≥ 20 then h.drop 1 else h) ++ [e]

/-- `history.pop()`: the most recently pushed entry and the remaining
stack, or `none` on an empty stack. -/
def historyPop {α : Type} (h : List α) : Option (α × List α) :=
  match h.getLast? with
  | none => none
  | some e => some (e, h.dropLast)

/-- Repeatedly popping until the stack is empty (fuelled by the length). -/
def popAllF {α : Type} : Nat → List α → List α
  | 0, _ => []
  | f + 1, h =>
    match historyPop h with
    | none => []
    | some (e, r) => e :: popAllF f r

def popAll {α : Type} (h : List α) : List α := popAllF h.length h

/-! ### The `/save` backup-and-edit step (app.js 726-896)

State touched by one `/save` request for a fixed file and day-bucket: the
bucket (base snapshot, diff files, out-of-band snapshots, `last` copy) and
the live file content.  `writes` records every `fs.writeFileSync` the
request performs, in order. -/

structure Bucket where
  first : Option (List Char)
  diffs : List (Nat × Option DiffRecord)
  snapshots : List (List Char)
  last : Option (List Char)
  deriving DecidableEq

inductive BackupKind
  | firstSnapshot
  | diff (n : Nat)
  | autoSnapshot
  deriving DecidableEq

inductive SaveResponse
  | saved (backup : BackupKind)
  | multiline (startLine endLine : Nat) (originalContent : List Char)
  | uneditable
  deriving DecidableEq

inductive WriteEvent
  | wFirst
  | wLast
  | wDiff
  | wSnapshot
  | wFile
  deriving DecidableEq

structure SaveResult where
  response : SaveResponse
  bucket : Bucket
  file : List Char
  writes : List WriteEvent
  deriving DecidableEq

/-- app.js 839-891: the shared tail of `/save` after the backup step —
sanitize, replace, and (on success) write the file and refresh `last`. -/
def saveApply (b : Bucket) (ws : List WriteEvent) (bk : BackupKind)
    (lines : List (List Char)) (fileContent : List Char) (lineIndex : Nat)
    (content : List Char) : SaveResult :=
  let sanitizedContent := removeEditorAttributes content
  let result := replaceSingleLine lines lineIndex sanitizedContent
  if result.originalLine = none ∧ result.isMultiline then
    ⟨SaveResponse.multiline (result.startLineIndex + 1) (result.endLineIndex + 1)
        (joinNl (jsSlice lines result.startLineIndex (result.endLineIndex + 1))),
      b, fileContent, ws⟩
  else if result.originalLine = none then
    ⟨SaveResponse.uneditable, b, fileContent, ws⟩
  else
    let newContent := joinNl result.lines
    ⟨SaveResponse.saved bk, { b with last := some newContent }, newContent,
      ws ++ [WriteEvent.wFile, WriteEvent.wLast]⟩

/-- The `/save` route body from the backup step on (app.js 754-891),
for an in-range `lineIndex` (`parseInt(line_number) - 1`). -/
def save (b : Bucket) (fileContent : List Char) (lineIndex : Nat)
    (content : List Char) : SaveResult :=
  let lines := splitNl fileContent
  match b.first with
  | none =>
    let b1 := { b with first := some fileContent, last := some fileContent }
    saveApply b1 [WriteEvent.wFirst, WriteEvent.wLast] BackupKind.firstSnapshot
      lines fileContent lineIndex content
  | some _ =>
    let sanitizedForDiff := removeEditorAttributes content
    let tempResult := replaceSingleLine lines lineIndex sanitizedForDiff
    if tempResult.originalLine = none ∧ tempResult.isMultiline then
      ⟨SaveResponse.multiline (tempResult.startLineIndex + 1) (tempResult.endLineIndex + 1)
          (joinNl (jsSlice lines tempResult.startLineIndex (tempResult.endLineIndex + 1))),
        b, fileContent, []⟩
    else if tempResult.originalLine = none then
      ⟨SaveResponse.uneditable, b, fileContent, []⟩
    else
      let expectedContent := reconstructContent b.first b.diffs none
      if expectedContent = some fileContent then
        let nextNum := b.diffs.length + 1
        let beforeContent := lines.getD lineIndex []
        let afterContent := tempResult.lines.getD lineIndex []
        let b1 := { b with diffs := b.diffs ++
          [(nextNum, some ⟨(lineIndex : Int) + 1, beforeContent, afterContent⟩)] }
        saveApply b1 [WriteEvent.wDiff] (BackupKind.diff nextNum)
          lines fileContent lineIndex content
      else
        let b1 := { b with snapshots := b.snapshots ++ [fileContent] }
        saveApply b1 [WriteEvent.wSnapshot] BackupKind.autoSnapshot
          lines fileContent lineIndex content

example :
    save ⟨some ("<b>y</b>".toList), [], [], some ("<b>y</b>".toList)⟩
      ("<b>y</b>".toList) 0 ("z".toList)
    = ⟨SaveResponse.saved (BackupKind.diff 1),
        ⟨some ("<b>y</b>".toList),
          [(1, some ⟨1, "<b>y</b>".toList, "<b>z</b>".toList⟩)], [],
          some ("<b>z</b>".toList)⟩,
        "<b>z</b>".toList,
        [WriteEvent.wDiff, WriteEvent.wFile, WriteEvent.wLast]⟩ := by decide

example :
    save ⟨some ("<b>y</b>".toList), [], [], some ("<b>y</b>".toList)⟩
      ("<b>x</b>".toList) 0 ("z".toList)
    = ⟨SaveResponse.saved BackupKind.autoSnapshot,
        ⟨some ("<b>y</b>".toList), [], ["<b>x</b>".toList], some ("<b>z</b>".toList)⟩,
        "<b>z</b>".toList,
        [WriteEvent.wSnapshot, WriteEvent.wFile, WriteEvent.wLast]⟩ := by decide

/-! ### Undo stack lemmas -/

theorem historyPush_length_le {α : Type} (h : List α) (e : α) (hl : h.length ≤ 20) :
    (historyPush h e).length ≤ 20 := by
  simp only [historyPush]
  split <;> simp <;> omega

theorem historyPush_eq_drop {α : Type} (h : List α) (e : α) (hl : h.length ≤ 20) :
    historyPush h e = (h ++ [e]).drop (h.length + 1 - 20) := by
  simp only [historyPush]
  split
  · next hge =>
    have h20 : h.length = 20 := le_antisymm hl hge
    rw [List.drop_append_eq_append_drop]
    simp [h20]
  · next hlt =>
    have : h.length + 1 - 20 = 0 := by omega
    simp [this]

theorem foldl_historyPush {α : Type} (l : List α) :
    ∀ h : List α, h.length ≤ 20 →
      List.foldl historyPush h l = (h ++ l).drop (h.length + l.length - 20) := by
  induction l with
  | nil =>
    intro h hl
    have hz : h.length - 20 = 0 := by omega
    simp [hz]
  | cons e l2 ih =>
    intro h hl
    have hstep := historyPush_eq_drop h e hl
    have hlen : (historyPush h e).length ≤ 20 := historyPush_length_le h e hl
    have hk : h.length + 1 - 20 ≤ (h ++ [e]).length := by simp; omega
    calc List.foldl historyPush h (e :: l2)
        = List.foldl historyPush (historyPush h e) l2 := rfl
      _ = ((historyPush h e) ++ l2).drop ((historyPush h e).length + l2.length - 20) :=
          ih _ hlen
      _ = (h ++ e :: l2).drop (h.length + (e :: l2).length - 20) := by
          rw [hstep]
          have hlen2 : ((h ++ [e]).drop (h.length + 1 - 20)).length
              = h.length + 1 - (h.length + 1 - 20) := by
            simp
          rw [hlen2]
          rw [← List.drop_append_of_le_length hk, List.drop_drop]
          have harr : (h ++ [e]) ++ l2 = h ++ e :: l2 := by simp
          rw [harr]
          congr 1
          simp only [List.length_cons]
          omega

theorem popAllF_eq_reverse {α : Type} :
    ∀ (f : Nat) (h : List α), h.length ≤ f → popAllF f h = h.reverse := by
  intro f
  induction f with
  | zero =>
    intro h hl
    have : h = [] := List.eq_nil_of_length_eq_zero (Nat.le_zero.mp hl)
    simp [this, popAllF]
  | succ f ih =>
    intro h hl
    rcases List.eq_nil_or_concat h with hnil | ⟨l2, a, hcat⟩
    · simp [hnil, popAllF, historyPop]
    · rw [List.concat_eq_append] at hcat
      subst hcat
      have hpop : historyPop (l2 ++ [a]) = some (a, l2) := by
        simp [historyPop, List.getLast?_concat]
      have hlen : l2.length ≤ f := by
        have h2 := hl
        simp only [List.length_append, List.length_cons, List.length_nil] at h2
        omega
      simp [popAllF, hpop, ih l2 hlen]

theorem popAll_eq_reverse {α : Type} (h : List α) : popAll h = h.reverse :=
  popAllF_eq_reverse h.length h (le_refl _)

/-- C7: the per-session undo history is bounded by 20 entries: a push at
capacity first evicts the oldest entry (the head) and then appends; after
25 pushes onto an empty history exactly the last 20 pushed entries remain,
and repeatedly popping returns the retained entries most-recently-pushed
first (reverse insertion order). -/
theorem undo_stack_bounded_lifo :
    (∀ (α : Type) (h : List α) (e : α), h.length ≤ 20 → (historyPush h e).length ≤ 20)
    ∧ (∀ (α : Type) (l : List α), l.length = 25 →
        List.foldl historyPush [] l = l.drop 5
        ∧ popAll (List.foldl historyPush [] l) = (l.drop 5).reverse) := by
  constructor
  · intro α h e hl
    exact historyPush_length_le h e hl
  · intro α l hl
    have h1 : List.foldl historyPush ([] : List α) l = l.drop 5 := by
      have := foldl_historyPush l ([] : List α) (by simp)
      simpa [hl] using this
    exact ⟨h1, by rw [h1, popAll_eq_reverse]⟩

theorem undo_stack_bounded_lifo_witness :
    (historyPush (List.range 20) 99).length ≤ 20
    ∧ List.foldl historyPush [] (List.range 25) = (List.range 25).drop 5
    ∧ popAll (List.foldl historyPush [] (List.range 25)) = ((List.range 25).drop 5).reverse :=
  ⟨undo_stack_bounded_lifo.1 Nat (List.range 20) 99 (by decide),
    (undo_stack_bounded_lifo.2 Nat (List.range 25) (by decide)).1,
    (undo_stack_bounded_lifo.2 Nat (List.range 25) (by decide)).2⟩

/-! ### Version chain replay lemmas -/

theorem replay_stops_at_bad (c : List Char) :
    ∀ (pre : List (Nat × Option DiffRecord)) (n : Nat)
      (rest : List (Nat × Option DiffRecord)) (target : Option Nat),
      replay c (pre ++ (n, none) :: rest) target = replay c pre target := by
  intro pre
  induction pre generalizing c with
  | nil =>
    intro n rest target
    simp only [List.nil_append, replay]
    split <;> rfl
  | cons p pre2 ih =>
    intro n rest target
    obtain ⟨m, r?⟩ := p
    simp only [List.cons_append, replay]
    split
    · rfl
    · cases r? with
      | none => rfl
      | some d => exact ih (applyDiff c d) n rest target

/-- C10: `reconstructContent` returns `null` exactly when the day-bucket
base snapshot `00_first` is absent; with a base snapshot present it always
returns content, and a diff record that fails to read or parse stops the
replay of the remaining records without turning the result into `null`. -/
theorem reconstruct_null_iff_no_base :
    (∀ (diffs : List (Nat × Option DiffRecord)) (target : Option Nat),
        reconstructContent none diffs target = none)
    ∧ (∀ (c : List Char) (diffs : List (Nat × Option DiffRecord)) (target : Option Nat),
        reconstructContent (some c) diffs target ≠ none)
    ∧ (∀ (c : List Char) (pre : List (Nat × Option DiffRecord)) (n : Nat)
        (rest : List (Nat × Option DiffRecord)) (target : Option Nat),
        reconstructContent (some c) (pre ++ (n, none) :: rest) target
          = reconstructContent (some c) pre target) := by
  refine ⟨fun _ _ => rfl, fun _ _ _ => by simp [reconstructContent], ?_⟩
  intro c pre n rest target
  simp only [reconstructContent]
  rw [replay_stops_at_bad]

theorem reconstruct_null_iff_no_base_witness :
    reconstructContent none [(1, some ⟨1, "a".toList, "b".toList⟩)] none = none
    ∧ reconstructContent (some ("a".toList)) [] none ≠ none
    ∧ reconstructContent (some ("a\nb".toList))
        ([(1, some ⟨2, "b".toList, "B".toList⟩)]
          ++ (2, none) :: [(3, some ⟨1, "a".toList, "A".toList⟩)]) none
      = reconstructContent (some ("a\nb".toList))
          [(1, some ⟨2, "b".toList, "B".toList⟩)] none :=
  ⟨reconstruct_null_iff_no_base.1 _ _,
    reconstruct_null_iff_no_base.2.1 _ _ _,
    reconstruct_null_iff_no_base.2.2 _ _ _ _ _⟩

theorem applyDiff_in_range (c : List Char) (d : DiffRecord) (h1 : d.after ≠ [])
    (h2 : 0 ≤ d.lineNumber - 1) (h3 : d.lineNumber - 1 < ((splitNl c).length : Int)) :
    applyDiff c d = joinNl ((splitNl c).set (d.lineNumber - 1).toNat d.after) := by
  simp only [applyDiff, if_pos h1]
  rw [if_pos ⟨h2, h3⟩]

theorem applyDiff_out_of_range (c : List Char) (d : DiffRecord)
    (h : ¬(0 ≤ d.lineNumber - 1 ∧ d.lineNumber - 1 < ((splitNl c).length : Int))) :
    applyDiff c d = c := by
  simp only [applyDiff]
  split <;> simp [if_neg h]

/-- The record payloads of the diff files numbered at most `target`. -/
def keptRecords (diffs : List (Nat × Option DiffRecord)) (target : Option Nat) :
    List DiffRecord :=
  diffs.filterMap (fun p => if numGT p.1 target then none else p.2)

theorem replay_eq_foldl_kept (c : List Char) (ds : List (Nat × Option DiffRecord))
    (target : Option Nat) (hparse : ∀ p ∈ ds, p.2 ≠ none)
    (hsorted : List.Pairwise (fun a b => a.1 ≤ b.1) ds) :
    replay c ds target = List.foldl applyDiff c (keptRecords ds target) := by
  induction ds generalizing c with
  | nil => rfl
  | cons p rest ih =>
    obtain ⟨m, r?⟩ := p
    have hrec : r? ≠ none := hparse (m, r?) (List.mem_cons_self _ _)
    obtain ⟨d, hd⟩ := Option.ne_none_iff_exists'.mp hrec
    subst hd
    rcases List.pairwise_cons.mp hsorted with ⟨hle, hsorted2⟩
    simp only [replay, keptRecords, List.filterMap_cons]
    by_cases hgt : numGT m target = true
    · rw [if_pos hgt, hgt]
      have hall : ∀ q ∈ rest, (fun p : Nat × Option DiffRecord =>
          if numGT p.1 target then none else p.2) q = none := by
        intro q hq
        have hmq : m ≤ q.1 := hle q hq
        have : numGT q.1 target = true := by
          cases target with
          | none => simp [numGT] at hgt
          | some t =>
            simp only [numGT, decide_eq_true_eq] at hgt ⊢
            omega
        simp [this]
      rw [List.filterMap_eq_nil_iff.mpr hall]
      rfl
    · rw [if_neg (by simpa using hgt)]
      simp only [hgt]
      simp only [Bool.false_eq_true, if_false, List.foldl_cons]
      exact ih (applyDiff c d) (fun q hq => hparse q (List.mem_cons_of_mem _ hq)) hsorted2

/-- C5 (amended): with a base snapshot present, `reconstruct` replays, in
ascending sequence order, exactly the parsed diff records with sequence
number at most `uptoSequence`; each replayed record whose `after` value is
non-empty and whose line number addresses a line of the current content
replaces that line by `after`, and a record whose line number is out of
range (or whose `after` is the empty string) is skipped without failing
the chain. -/
theorem reconstruct_replays_in_order :
    (∀ (c : List Char) (ds : List (Nat × Option DiffRecord)) (target : Option Nat),
        (∀ p ∈ ds, p.2 ≠ none) → List.Pairwise (fun a b => a.1 ≤ b.1) ds →
        reconstructContent (some c) ds target
          = some (List.foldl applyDiff c (keptRecords ds target)))
    ∧ (∀ (c : List Char) (d : DiffRecord), d.after ≠ [] → 0 ≤ d.lineNumber - 1 →
        d.lineNumber - 1 < ((splitNl c).length : Int) →
        applyDiff c d = joinNl ((splitNl c).set (d.lineNumber - 1).toNat d.after))
    ∧ (∀ (c : List Char) (d : DiffRecord),
        ¬(0 ≤ d.lineNumber - 1 ∧ d.lineNumber - 1 < ((splitNl c).length : Int)) →
        applyDiff c d = c) := by
  refine ⟨?_, applyDiff_in_range, applyDiff_out_of_range⟩
  intro c ds target hparse hsorted
  simp only [reconstructContent]
  rw [replay_eq_foldl_kept c ds target hparse hsorted]

theorem reconstruct_replays_in_order_witness :
    reconstructContent (some ("a\nb\nc".toList))
        [(1, some ⟨2, "b".toList, "B".toList⟩), (2, some ⟨3, "c".toList, "C".toList⟩),
          (3, some ⟨2, "B".toList, "Z".toList⟩)] (some 2)
      = some (List.foldl applyDiff ("a\nb\nc".toList)
          (keptRecords [(1, some ⟨2, "b".toList, "B".toList⟩),
            (2, some ⟨3, "c".toList, "C".toList⟩),
            (3, some ⟨2, "B".toList, "Z".toList⟩)] (some 2)))
    ∧ applyDiff ("a\nb".toList) ⟨2, "b".toList, "B".toList⟩
        = joinNl ((splitNl ("a\nb".toList)).set (((2 : Int) - 1).toNat) ("B".toList))
    ∧ applyDiff ("a\nb".toList) ⟨5, "x".toList, "X".toList⟩ = ("a\nb".toList) :=
  ⟨reconstruct_replays_in_order.1 _ _ _ (by decide) (by decide),
    reconstruct_replays_in_order.2.1 _ _ (by decide) (by decide) (by decide),
    reconstruct_replays_in_order.2.2 _ _ (by decide)⟩

/-- C5 counterexample: a diff record whose `after` value is the empty
string is skipped even when its line number is in range, so not "every
in-range diff's `after` value is applied": applying the record would give
`"\nb"`, but `reconstruct` leaves the content unchanged. -/
theorem reconstruct_skips_empty_after :
    reconstructContent (some ("a\nb".toList)) [(1, some ⟨1, "a".toList, []⟩)] none
      = some ("a\nb".toList)
    ∧ joinNl ((splitNl ("a\nb".toList)).set 0 []) = ("\nb".toList)
    ∧ ("a\nb".toList) ≠ ("\nb".toList) := by decide

/-! ### `/save` branch lemmas -/

/-- Only the deferred (complex multiline) branch of `replaceSingleLine`
sets `isMultiline`; that branch returns the line array untouched. -/
theorem replaceSingleLine_multiline_frame (lines : List (List Char)) (i : Nat)
    (nc : List Char) (h : (replaceSingleLine lines i nc).isMultiline = true) :
    (replaceSingleLine lines i nc).lines = lines
    ∧ (replaceSingleLine lines i nc).originalLine = none
    ∧ (replaceSingleLine lines i nc).startLineIndex = i := by
  revert h
  simp only [replaceSingleLine]
  split
  · simp
  · split
    · simp
    · split
      · simp
      · split
        · split
          · intro _; exact ⟨rfl, rfl, rfl⟩
          · simp
        · intro _; exact ⟨rfl, rfl, rfl⟩

/-- C9 (amended): when the day-bucket already has a base snapshot and the
requested region is a complex (non-promotable) multiline region, `/save`
performs no write at all, leaves the line array, the bucket and the live
file untouched, and answers with the region's one-based line bounds and
the original region content.  (On the first edit of a day the base
snapshot and the `last` copy are written before the deferral is noticed —
see the counterexample.) -/
theorem save_deferred_no_mutation :
    ∀ (b : Bucket) (fileContent : List Char) (lineIndex : Nat) (content : List Char),
      b.first ≠ none →
      (replaceSingleLine (splitNl fileContent) lineIndex
          (removeEditorAttributes content)).originalLine = none →
      (replaceSingleLine (splitNl fileContent) lineIndex
          (removeEditorAttributes content)).isMultiline = true →
      (replaceSingleLine (splitNl fileContent) lineIndex
          (removeEditorAttributes content)).lines = splitNl fileContent
      ∧ save b fileContent lineIndex content
        = ⟨SaveResponse.multiline
              ((replaceSingleLine (splitNl fileContent) lineIndex
                  (removeEditorAttributes content)).startLineIndex + 1)
              ((replaceSingleLine (splitNl fileContent) lineIndex
                  (removeEditorAttributes content)).endLineIndex + 1)
              (joinNl (jsSlice (splitNl fileContent)
                ((replaceSingleLine (splitNl fileContent) lineIndex
                    (removeEditorAttributes content)).startLineIndex)
                ((replaceSingleLine (splitNl fileContent) lineIndex
                    (removeEditorAttributes content)).endLineIndex + 1))),
            b, fileContent, []⟩ := by
  intro b fileContent lineIndex content hb hnone hmult
  obtain ⟨f0, hf⟩ := Option.ne_none_iff_exists'.mp hb
  refine ⟨(replaceSingleLine_multiline_frame _ _ _ hmult).1, ?_⟩
  simp only [save, hf]
  rw [if_pos ⟨hnone, hmult⟩]

theorem save_deferred_no_mutation_witness :
    ((replaceSingleLine (splitNl ("<ul>\n<li><b>a</b>\n</li>\n</ul>".toList)) 1
        (removeEditorAttributes ("x".toList))).lines
      = splitNl ("<ul>\n<li><b>a</b>\n</li>\n</ul>".toList))
    ∧ save ⟨some ("<ul>\n<li>old\n</li>\n</ul>".toList), [], [],
          some ("<ul>\n<li>old\n</li>\n</ul>".toList)⟩
        ("<ul>\n<li><b>a</b>\n</li>\n</ul>".toList) 1 ("x".toList)
      = ⟨SaveResponse.multiline
            ((replaceSingleLine (splitNl ("<ul>\n<li><b>a</b>\n</li>\n</ul>".toList)) 1
                (removeEditorAttributes ("x".toList))).startLineIndex + 1)
            ((replaceSingleLine (splitNl ("<ul>\n<li><b>a</b>\n</li>\n</ul>".toList)) 1
                (removeEditorAttributes ("x".toList))).endLineIndex + 1)
            (joinNl (jsSlice (splitNl ("<ul>\n<li><b>a</b>\n</li>\n</ul>".toList))
              ((replaceSingleLine (splitNl ("<ul>\n<li><b>a</b>\n</li>\n</ul>".toList)) 1
                  (removeEditorAttributes ("x".toList))).startLineIndex)
              ((replaceSingleLine (splitNl ("<ul>\n<li><b>a</b>\n</li>\n</ul>".toList)) 1
                  (removeEditorAttributes ("x".toList))).endLineIndex + 1))),
          ⟨some ("<ul>\n<li>old\n</li>\n</ul>".toList), [], [],
            some ("<ul>\n<li>old\n</li>\n</ul>".toList)⟩,
          "<ul>\n<li><b>a</b>\n</li>\n</ul>".toList, []⟩ :=
  save_deferred_no_mutation _ _ _ _ (by decide) (by decide) (by decide)

/-- C9 counterexample: on the first edit of a day-bucket the `/save` route
writes the base snapshot and the `last` convenience copy *before* running
the replacement, so a deferred multiline outcome is still preceded by two
file writes, contradicting "no file write is performed for this outcome". -/
theorem save_deferred_first_edit_writes :
    (save ⟨none, [], [], none⟩ ("<ul>\n<li><b>a</b>\n</li>\n</ul>".toList) 1
        ("x".toList)).response
      = SaveResponse.multiline 2 3 ("<li><b>a</b>\n</li>".toList)
    ∧ (save ⟨none, [], [], none⟩ ("<ul>\n<li><b>a</b>\n</li>\n</ul>".toList) 1
        ("x".toList)).writes = [WriteEvent.wFirst, WriteEvent.wLast]
    ∧ [WriteEvent.wFirst, WriteEvent.wLast] ≠ ([] : List WriteEvent) := by decide

/-- C1 (amended): when the day-bucket already has a base snapshot and the
live content differs from the chain's reconstruction, a valid single-line
`/save` writes a full out-of-band snapshot (the live pre-edit content)
instead of appending a diff record; however replay-based reconstruction
ignores out-of-band snapshots — it still starts from the day's `00_first`
base and the old diff records, so its value is unchanged by the rebase. -/
theorem save_divergence_writes_snapshot :
    ∀ (b : Bucket) (fileContent : List Char) (lineIndex : Nat) (content : List Char),
      b.first ≠ none →
      reconstructContent b.first b.diffs none ≠ some fileContent →
      (replaceSingleLine (splitNl fileContent) lineIndex
          (removeEditorAttributes content)).originalLine ≠ none →
      (save b fileContent lineIndex content).response
          = SaveResponse.saved BackupKind.autoSnapshot
      ∧ (save b fileContent lineIndex content).bucket.first = b.first
      ∧ (save b fileContent lineIndex content).bucket.diffs = b.diffs
      ∧ (save b fileContent lineIndex content).bucket.snapshots
          = b.snapshots ++ [fileContent]
      ∧ reconstructContent (save b fileContent lineIndex content).bucket.first
            (save b fileContent lineIndex content).bucket.diffs none
          = reconstructContent b.first b.diffs none := by
  intro b fileContent lineIndex content hb hdiv hsingle
  obtain ⟨f0, hf⟩ := Option.ne_none_iff_exists'.mp hb
  have hcond1 : ¬((replaceSingleLine (splitNl fileContent) lineIndex
      (removeEditorAttributes content)).originalLine = none
      ∧ (replaceSingleLine (splitNl fileContent) lineIndex
      (removeEditorAttributes content)).isMultiline = true) := by
    intro hctr
    exact hsingle hctr.1
  have hsave : save b fileContent lineIndex content
      = saveApply { b with snapshots := b.snapshots ++ [fileContent] }
          [WriteEvent.wSnapshot] BackupKind.autoSnapshot (splitNl fileContent)
          fileContent lineIndex content := by
    simp only [save, hf]
    rw [if_neg hcond1, if_neg hsingle, if_neg (by rw [← hf]; exact hdiv)]
  have happ : saveApply { b with snapshots := b.snapshots ++ [fileContent] }
      [WriteEvent.wSnapshot] BackupKind.autoSnapshot (splitNl fileContent)
      fileContent lineIndex content
      = ⟨SaveResponse.saved BackupKind.autoSnapshot,
          ⟨b.first, b.diffs, b.snapshots ++ [fileContent],
            some (joinNl (replaceSingleLine (splitNl fileContent) lineIndex
              (removeEditorAttributes content)).lines)⟩,
          joinNl (replaceSingleLine (splitNl fileContent) lineIndex
            (removeEditorAttributes content)).lines,
          [WriteEvent.wSnapshot, WriteEvent.wFile, WriteEvent.wLast]⟩ := by
    simp only [saveApply]
    rw [if_neg hcond1, if_neg hsingle]
    rfl
  rw [hsave, happ]
  exact ⟨rfl, rfl, rfl, rfl, rfl⟩

theorem save_divergence_writes_snapshot_witness :
    ((save ⟨some ("<b>y</b>".toList), [], [], some ("<b>y</b>".toList)⟩
          ("<b>x</b>".toList) 0 ("z".toList)).response
        = SaveResponse.saved BackupKind.autoSnapshot)
    ∧ (save ⟨some ("<b>y</b>".toList), [], [], some ("<b>y</b>".toList)⟩
          ("<b>x</b>".toList) 0 ("z".toList)).bucket.first = some ("<b>y</b>".toList)
    ∧ (save ⟨some ("<b>y</b>".toList), [], [], some ("<b>y</b>".toList)⟩
          ("<b>x</b>".toList) 0 ("z".toList)).bucket.diffs = []
    ∧ (save ⟨some ("<b>y</b>".toList), [], [], some ("<b>y</b>".toList)⟩
          ("<b>x</b>".toList) 0 ("z".toList)).bucket.snapshots
        = [] ++ [("<b>x</b>".toList)]
    ∧ reconstructContent (save ⟨some ("<b>y</b>".toList), [], [],
            some ("<b>y</b>".toList)⟩ ("<b>x</b>".toList) 0 ("z".toList)).bucket.first
          (save ⟨some ("<b>y</b>".toList), [], [], some ("<b>y</b>".toList)⟩
            ("<b>x</b>".toList) 0 ("z".toList)).bucket.diffs none
        = reconstructContent (some ("<b>y</b>".toList)) [] none := by
  have h := save_divergence_writes_snapshot
    ⟨some ("<b>y</b>".toList), [], [], some ("<b>y</b>".toList)⟩
    ("<b>x</b>".toList) 0 ("z".toList) (by decide) (by decide) (by decide)
  exact h

/-- C1 counterexample: after the out-of-band snapshot is written, replay
based reconstruction still yields the old base content `"<b>y</b>"`, which
is neither the snapshot baseline `"<b>x</b>"` nor the new live content
`"<b>z</b>"` — subsequent reconstruction does *not* use the most recent
out-of-band snapshot as a new effective base. -/
theorem save_divergence_no_rebase :
    (save ⟨some ("<b>y</b>".toList), [], [], some ("<b>y</b>".toList)⟩
        ("<b>x</b>".toList) 0 ("z".toList)).response
      = SaveResponse.saved BackupKind.autoSnapshot
    ∧ (save ⟨some ("<b>y</b>".toList), [], [], some ("<b>y</b>".toList)⟩
        ("<b>x</b>".toList) 0 ("z".toList)).bucket.snapshots = [("<b>x</b>".toList)]
    ∧ (save ⟨some ("<b>y</b>".toList), [], [], some ("<b>y</b>".toList)⟩
        ("<b>x</b>".toList) 0 ("z".toList)).file = ("<b>z</b>".toList)
    ∧ reconstructContent (save ⟨some ("<b>y</b>".toList), [], [],
          some ("<b>y</b>".toList)⟩ ("<b>x</b>".toList) 0 ("z".toList)).bucket.first
        (save ⟨some ("<b>y</b>".toList), [], [], some ("<b>y</b>".toList)⟩
          ("<b>x</b>".toList) 0 ("z".toList)).bucket.diffs none
      = some ("<b>y</b>".toList)
    ∧ ("<b>y</b>".toList) ≠ ("<b>x</b>".toList)
    ∧ ("<b>y</b>".toList) ≠ ("<b>z</b>".toList) := by decide

/-! ### Replacement engine theorems -/

/-- C2: on a line whose first tag also closes on that same line
(case-insensitively), `replaceSingleLine` replaces exactly the characters
strictly between the opening tag's `>` (offset `p`) and the closing tag's
`<` (offset `q`) by the pre-sanitized new content, keeps the rest of the
line, leaves every other line unchanged, and returns the original full
line as the inverse. -/
theorem replace_single_line_between_tags :
    ∀ (lines : List (List Char)) (i : Nat) (newContent tag : List Char) (p q : Nat),
      firstTagMatch (lines.getD i []) = some tag →
      indexOfChar (lines.getD i []) '>' = some p →
      ciIndexOfSub (lines.getD i []) ('<' :: '/' :: tag ++ ['>']) = some q →
      p < q →
      removeEditorAttributes newContent = newContent →
      replaceSingleLine lines i newContent
        = ⟨lines.set i ((lines.getD i []).take (p + 1) ++ newContent
              ++ (lines.getD i []).drop q),
            some (lines.getD i []), false, 0, 0⟩
      ∧ (∀ j, j ≠ i →
          (replaceSingleLine lines i newContent).lines.getD j [] = lines.getD j []) := by
  intro lines i nc tag p q h1 h2 h3 hpq h5
  have heq : replaceSingleLine lines i nc
      = ⟨lines.set i ((lines.getD i []).take (p + 1) ++ nc ++ (lines.getD i []).drop q),
          some (lines.getD i []), false, 0, 0⟩ := by
    simp only [replaceSingleLine, h1, h2, h3, h5]
  refine ⟨heq, ?_⟩
  intro j hj
  rw [heq]
  simp [List.getD, List.getElem?_set_ne (Ne.symm hj)]

theorem replace_single_line_between_tags_witness :
    (replaceSingleLine ["<li>A</li>".toList, "<li>B</li>".toList] 0 ("C".toList)
        = ⟨["<li>C</li>".toList, "<li>B</li>".toList], some ("<li>A</li>".toList),
            false, 0, 0⟩)
    ∧ (replaceSingleLine ["<b>old</b>".toList] 0 ("new".toList)
        = ⟨["<b>new</b>".toList], some ("<b>old</b>".toList), false, 0, 0⟩)
    ∧ (∀ j, j ≠ 0 →
        (replaceSingleLine ["<li>A</li>".toList, "<li>B</li>".toList] 0
            ("C".toList)).lines.getD j []
          = (["<li>A</li>".toList, "<li>B</li>".toList]).getD j []) := by
  refine ⟨?_, ?_,
    (replace_single_line_between_tags ["<li>A</li>".toList, "<li>B</li>".toList] 0
      ("C".toList) ("li".toList) 3 5 (by decide) (by decide) (by decide) (by decide)
      (by decide)).2⟩
  · have h := (replace_single_line_between_tags ["<li>A</li>".toList, "<li>B</li>".toList] 0
      ("C".toList) ("li".toList) 3 5 (by decide) (by decide) (by decide) (by decide)
      (by decide)).1
    rw [h]; decide
  · have h := (replace_single_line_between_tags ["<b>old</b>".toList] 0
      ("new".toList) ("b".toList) 2 6 (by decide) (by decide) (by decide) (by decide)
      (by decide)).1
    rw [h]; decide

/-- C4 (amended): a multiline `li`/`td` region whose inner text carries no
markup beyond explicit line breaks is collapsed by `replaceSingleLine`
into one line spliced in place of the whole region; that line is the start
line's leading whitespace *prepended again* to the original opening-tag
prefix (which already begins with that whitespace), then the new content,
then the closing tag — so a non-empty indentation appears twice, not
exactly once. -/
theorem replace_promotes_simple_multiline :
    ∀ (lines : List (List Char)) (i : Nat) (newContent tag : List Char) (p e k : Nat),
      firstTagMatch (lines.getD i []) = some tag →
      indexOfChar (lines.getD i []) '>' = some p →
      ciIndexOfSub (lines.getD i []) ('<' :: '/' :: tag ++ ['>']) = none →
      findClosingTagLocation lines i tag = some (e, k) →
      (lowerS tag = "li".toList ∨ lowerS tag = "td".toList) →
      hasOtherTags (jsSubstring (joinNl (jsSlice lines i (e + 1)))
          (idxToJs (indexOfChar (joinNl (jsSlice lines i (e + 1))) '>') + 1)
          (idxToJs (lastIndexOfSub (joinNl (jsSlice lines i (e + 1)))
            ('<' :: '/' :: tag ++ ['>'])))) = false →
      removeEditorAttributes newContent = newContent →
      replaceSingleLine lines i newContent
        = ⟨spliceList lines i (e - i + 1)
              [(lines.getD i []).takeWhile isWsChar ++ (lines.getD i []).take (p + 1)
                ++ newContent ++ '<' :: '/' :: tag ++ ['>']],
            some (lines.getD i []), false, 0, 0⟩ := by
  intro lines i nc tag p e k h1 h2 h3 h4 h5 h6 h7
  simp only [replaceSingleLine, h1, h2, h3, h4, h7]
  rw [if_pos ⟨h5, by simp⟩, if_neg (by rw [h6]; simp)]

theorem replace_promotes_simple_multiline_witness :
    replaceSingleLine [" <li>".toList, "a".toList, " </li>".toList] 0 ("X".toList)
      = ⟨spliceList [" <li>".toList, "a".toList, " </li>".toList] 0 3
            [(" <li>".toList).takeWhile isWsChar ++ (" <li>".toList).take 5
              ++ "X".toList ++ '<' :: '/' :: "li".toList ++ ['>']],
          some (" <li>".toList), false, 0, 0⟩ :=
  replace_promotes_simple_multiline [" <li>".toList, "a".toList, " </li>".toList] 0
    ("X".toList) ("li".toList) 4 2 1 (by decide) (by decide) (by decide) (by decide)
    (by decide) (by decide) (by decide)

/-- C4 counterexample: promoting the region `[" <li>", "a", " </li>"]`
(one space of indentation) produces the single line `"  <li>X</li>"`,
whose leading whitespace is two spaces — the original indentation does not
appear exactly once at the start of the new line. -/
theorem replace_promotes_duplicates_indent :
    replaceSingleLine [" <li>".toList, "a".toList, " </li>".toList] 0 ("X".toList)
      = ⟨["  <li>X</li>".toList], some (" <li>".toList), false, 0, 0⟩
    ∧ ("  <li>X</li>".toList).takeWhile isWsChar ≠ (" <li>".toList).takeWhile isWsChar := by
  decide

/-! ### Locator theorems -/

/-- All tag occurrences scanned by the locator, flattened across lines in
scan order: `(lineIndex, column, isClosing)`.  The first line is scanned
from the seed column, later lines from column 0. -/
def allMatches (tag : List Char) : List (List Char) → Nat → Nat → List (Nat × Nat × Bool)
  | [], _, _ => []
  | l :: ls, li, sp =>
    ((scanFrom tag l sp).map (fun m => (li, m.1, m.2))) ++ allMatches tag ls (li + 1) 0

/-- The claim's depth counter over the flattened occurrence list: each
opening occurrence increments, each closing occurrence decrements, and the
first closing occurrence at which the counter returns to zero is the
answer. -/
def depthRun : List (Nat × Nat × Bool) → Int → Option (Nat × Nat)
  | [], _ => none
  | (li, ci, cl) :: rest, d =>
    if cl then (if d - 1 = 0 then some (li, ci) else depthRun rest (d - 1))
    else depthRun rest (d + 1)

theorem depthRun_append (ms : List (Nat × Bool)) :
    ∀ (rest : List (Nat × Nat × Bool)) (li : Nat) (d : Int),
      depthRun ((ms.map (fun m => (li, m.1, m.2))) ++ rest) d
        = (match stepLine ms d with
            | Sum.inr i => some (li, i)
            | Sum.inl d2 => depthRun rest d2) := by
  induction ms with
  | nil => intro rest li d; rfl
  | cons m ms2 ih =>
    intro rest li d
    obtain ⟨i, cl⟩ := m
    simp only [List.map_cons, List.cons_append, depthRun, stepLine]
    by_cases hcl : cl = true
    · subst hcl
      simp only [if_pos rfl]
      by_cases hd : d - 1 = 0
      · simp [hd]
      · simp only [if_neg hd]
        exact ih rest li (d - 1)
    · have hcl2 : cl = false := by simpa using hcl
      subst hcl2
      simp only [Bool.false_eq_true, if_false]
      exact ih rest li (d + 1)

theorem fctGo_eq_depthRun (tag : List Char) :
    ∀ (ls : List (List Char)) (li : Nat) (d : Int) (sp : Nat),
      fctGo tag ls li d sp = depthRun (allMatches tag ls li sp) d := by
  intro ls
  induction ls with
  | nil => intro li d sp; rfl
  | cons l ls2 ih =>
    intro li d sp
    simp only [fctGo, allMatches]
    rw [depthRun_append]
    cases hstep : stepLine (scanFrom tag l sp) d with
    | inr i => rfl
    | inl d2 => exact ih (li + 1) d2 0

/-- C3: starting from the seed on the start line (here required to point
at an opening occurrence, as the claim presupposes), the locator's answer
is exactly the depth-counter scan over the flattened occurrence list —
each opening occurrence increments, each closing decrements, and the
closing occurrence at which the counter returns to zero is returned; in
particular on `<ul><li><ul><li>a</li></ul></li></ul>`, locating `li` from
the outer `<li>` returns the outer `</li>` (offset 27), not the inner one
(offset 17). -/
theorem locator_depth_pairing :
    (∀ (lines : List (List Char)) (s : Nat) (tag : List Char) (sp li ci : Nat)
        (rest : List (Nat × Nat × Bool)),
        indexOfSub (lines.getD s []) ('<' :: tag) = some sp →
        allMatches tag (lines.drop s) s sp = (li, ci, false) :: rest →
        findClosingTagLocation lines s tag = depthRun (allMatches tag (lines.drop s) s sp) 0)
    ∧ findClosingTagLocation ["<ul><li><ul><li>a</li></ul></li></ul>".toList] 0
        ("li".toList) = some (0, 27)
    ∧ (some (0, 27) : Option (Nat × Nat)) ≠ some (0, 17) := by
  refine ⟨?_, by decide, by decide⟩
  intro lines s tag sp li ci rest hseed hopen
  simp only [findClosingTagLocation, hseed]
  exact fctGo_eq_depthRun tag (lines.drop s) s 0 sp

theorem locator_depth_pairing_witness :
    findClosingTagLocation ["<ul><li><ul><li>a</li></ul></li></ul>".toList] 0 ("li".toList)
      = depthRun (allMatches ("li".toList)
          (["<ul><li><ul><li>a</li></ul></li></ul>".toList].drop 0) 0 4) 0 :=
  locator_depth_pairing.1 ["<ul><li><ul><li>a</li></ul></li></ul>".toList] 0
    ("li".toList) 4 0 4 [(0, 12, false), (0, 17, true), (0, 27, true)]
    (by decide) (by decide)

theorem alnum_ne_slash {c : Char} (h : isAlnumChar c = true) : c ≠ '/' := by
  intro hc
  subst hc
  exact absurd h (by decide)

theorem alnum_word {c : Char} (h : isAlnumChar c = true) : isWordChar c = true := by
  simp [isWordChar, h]

theorem isPrefixOf_append_self : ∀ (p r : List Char), p.isPrefixOf (p ++ r) = true := by
  intro p r
  induction p with
  | nil => simp [List.isPrefixOf]
  | cons c p2 ih => simp [List.isPrefixOf, ih]

theorem lowerS_length (s : List Char) : (lowerS s).length = s.length := by
  simp [lowerS]

theorem lowerS_append (a b : List Char) : lowerS (a ++ b) = lowerS a ++ lowerS b := by
  simp [lowerS]

/-- `tagMatchAt` on an opening occurrence (next char not `/`) runs the
shared matcher body with `cl = false`. -/
theorem tagMatchAt_opening (tag : List Char) (c : Char) (body : List Char) (hc : c ≠ '/') :
    tagMatchAt tag ('<' :: c :: body) = tagMatchCore tag (c :: body) false := by
  unfold tagMatchAt
  split
  · next x heq =>
    rw [List.cons.injEq, List.cons.injEq] at heq
    exact absurd heq.2.1 hc
  · next x heq =>
    rw [List.cons.injEq] at heq
    rw [heq.2]
  · next hne1 hne2 => exact absurd rfl (hne2 (c :: body))

/-- Variant of `tagMatchAt_opening` that keeps the suffix unexposed. -/
theorem tagMatchAt_opening_of_head (tag s : List Char) (hs : s ≠ [])
    (h : ∀ x, s.head? = some x → x ≠ '/') :
    tagMatchAt tag ('<' :: s) = tagMatchCore tag s false := by
  obtain ⟨x, xs, hx⟩ := List.exists_cons_of_ne_nil hs
  subst hx
  exact tagMatchAt_opening tag x xs (h x rfl)

theorem tagMatchAt_closing (tag : List Char) (body : List Char) :
    tagMatchAt tag ('<' :: '/' :: body) = tagMatchCore tag body true := rfl

theorem tagMatchCore_eval (tag body : List Char) (cl : Bool)
    (hp : (lowerS tag).isPrefixOf (lowerS body) = true)
    (hw : isWordChar (tag.getLastD (if cl then '/' else '<')) = true)
    (hn : (match (body.drop tag.length).head? with
        | some c => isWordChar c
        | none => false) = false) :
    tagMatchCore tag body cl = some (cl, 1 + (if cl then 1 else 0) + tag.length) := by
  unfold tagMatchCore
  rw [if_pos]
  exact ⟨hp, by rw [hw, hn]; simp⟩

theorem tagMatchCore_boundary_fails (tag body : List Char) (cl : Bool)
    (hw : isWordChar (tag.getLastD (if cl then '/' else '<')) = true)
    (hn : (match (body.drop tag.length).head? with
        | some c => isWordChar c
        | none => false) = true) :
    tagMatchCore tag body cl = none := by
  unfold tagMatchCore
  rw [if_neg]
  intro hctr
  have hb := hctr.2
  rw [hw, hn] at hb
  exact hb rfl

/-- C8 (amended): the per-occurrence matcher `<\/?tagName\b` is
case-insensitive and word-boundary aware — an occurrence of the tag in any
letter case is matched, while a longer tag name sharing a prefix is not
(`<li` does not match `<link`); however the *seed* on the start line is
the case-sensitive `indexOf('<' + tagName)`, so when the start line has no
case-exact occurrence of `<tagName` the locator reports `NotFound`. -/
theorem locator_matcher_ci_word_boundary :
    (∀ (lines : List (List Char)) (s : Nat) (tag : List Char),
        indexOfSub (lines.getD s []) ('<' :: tag) = none →
        findClosingTagLocation lines s tag = none)
    ∧ (∀ (tag tag2 z : List Char), tag ≠ [] → (∀ c ∈ tag, isAlnumChar c = true) →
        tag2 ≠ [] → (∀ c ∈ tag2, isAlnumChar c = true) → lowerS tag2 = lowerS tag →
        (∀ c, z.head? = some c → isWordChar c = false) →
        tagMatchAt tag ('<' :: (tag2 ++ z)) = some (false, 1 + tag.length)
        ∧ tagMatchAt tag ('<' :: '/' :: (tag2 ++ z)) = some (true, 2 + tag.length))
    ∧ (∀ (tag : List Char) (c : Char) (cs : List Char), tag ≠ [] →
        (∀ x ∈ tag, isAlnumChar x = true) → isWordChar c = true →
        tagMatchAt tag ('<' :: (tag ++ c :: cs)) = none) := by
  have hlast : ∀ (tag : List Char), tag ≠ [] → (∀ c ∈ tag, isAlnumChar c = true) →
      ∀ (dflt : Char), isWordChar (tag.getLastD dflt) = true := by
    intro tag htne htal dflt
    rcases List.eq_nil_or_concat tag with hnil | ⟨ts, lc, hcat⟩
    · exact absurd hnil htne
    · rw [List.concat_eq_append] at hcat
      subst hcat
      rw [List.getLastD_concat]
      exact alnum_word (htal lc (by simp))
  refine ⟨?_, ?_, ?_⟩
  · intro lines s tag hseed
    simp only [findClosingTagLocation, hseed]
  · intro tag tag2 z htne htal ht2ne ht2al hlow hz
    obtain ⟨t2, ts2, ht2⟩ := List.exists_cons_of_ne_nil ht2ne
    have hlen : tag2.length = tag.length := by
      have hc := congrArg List.length hlow
      simpa [lowerS_length] using hc
    have ht2slash : t2 ≠ '/' := alnum_ne_slash (ht2al t2 (by simp [ht2]))
    have hpref : (lowerS tag).isPrefixOf (lowerS (tag2 ++ z)) = true := by
      rw [lowerS_append, hlow]
      exact isPrefixOf_append_self _ _
    have hnext : (match ((tag2 ++ z).drop tag.length).head? with
        | some c => isWordChar c
        | none => false) = false := by
      rw [← hlen, List.drop_left]
      cases hzh : z.head? with
      | none => rfl
      | some c => simpa using hz c hzh
    have hhd : ∀ x, (tag2 ++ z).head? = some x → x ≠ '/' := by
      intro x hx
      rw [ht2] at hx
      simp only [List.cons_append, List.head?_cons, Option.some.injEq] at hx
      rw [hx] at ht2slash
      exact ht2slash
    constructor
    · rw [tagMatchAt_opening_of_head tag (tag2 ++ z) (by simp [ht2]) hhd]
      rw [tagMatchCore_eval tag (tag2 ++ z) false hpref
        (hlast tag htne htal _) hnext]
      simp
    · rw [tagMatchAt_closing]
      rw [tagMatchCore_eval tag (tag2 ++ z) true hpref
        (hlast tag htne htal _) hnext]
      simp
  · intro tag c cs htne htal hword
    obtain ⟨t, ts, ht⟩ := List.exists_cons_of_ne_nil htne
    have htslash : t ≠ '/' := alnum_ne_slash (htal t (by simp [ht]))
    have hnext : (match ((tag ++ c :: cs).drop tag.length).head? with
        | some x => isWordChar x
        | none => false) = true := by
      rw [List.drop_left]
      simpa using hword
    have hhd : ∀ x, (tag ++ c :: cs).head? = some x → x ≠ '/' := by
      intro x hx
      rw [ht] at hx
      simp only [List.cons_append, List.head?_cons, Option.some.injEq] at hx
      rw [hx] at htslash
      exact htslash
    rw [tagMatchAt_opening_of_head tag (tag ++ c :: cs) (by simp [ht]) hhd]
    exact tagMatchCore_boundary_fails tag (tag ++ c :: cs) false
      (hlast tag htne htal _) hnext

theorem locator_matcher_ci_word_boundary_witness :
    (findClosingTagLocation ["x".toList] 0 ("li".toList) = none)
    ∧ tagMatchAt ("li".toList) ('<' :: ("LI".toList ++ ">a".toList))
        = some (false, 1 + ("li".toList).length)
    ∧ tagMatchAt ("li".toList) ('<' :: '/' :: ("LI".toList ++ ">".toList))
        = some (true, 2 + ("li".toList).length)
    ∧ tagMatchAt ("li".toList) ('<' :: ("li".toList ++ 'n' :: "k>".toList)) = none :=
  ⟨locator_matcher_ci_word_boundary.1 ["x".toList] 0 ("li".toList) (by decide),
    (locator_matcher_ci_word_boundary.2.1 ("li".toList) ("LI".toList) (">a".toList)
      (by decide) (by decide) (by decide) (by decide) (by decide) (by decide)).1,
    (locator_matcher_ci_word_boundary.2.1 ("li".toList) ("LI".toList) (">".toList)
      (by decide) (by decide) (by decide) (by decide) (by decide) (by decide)).2,
    locator_matcher_ci_word_boundary.2.2 ("li".toList) 'n' ("k>".toList)
      (by decide) (by decide) (by decide)⟩

/-- C8 counterexample: the start line `<LI>a</LI>` contains the tag `li`
in upper case — the case-insensitive matcher even matches at its start —
yet the locator returns `NotFound`, because the seed search
`indexOf('<li')` is case-sensitive. -/
theorem locator_seed_case_sensitive :
    findClosingTagLocation ["<LI>a</LI>".toList] 0 ("li".toList) = none
    ∧ tagMatchAt ("li".toList) ("<LI>a</LI>".toList) = some (false, 3) := by decide

/-! ### Substring occurrence lemmas for the sanitizer round trip -/

theorem isPrefixOf_iff_exists {p s : List Char} :
    p.isPrefixOf s = true ↔ ∃ r, s = p ++ r := by
  induction p generalizing s with
  | nil => simp [List.isPrefixOf]
  | cons c p2 ih =>
    cases s with
    | nil => simp [List.isPrefixOf]
    | cons d s2 =>
      simp only [List.isPrefixOf, Bool.and_eq_true, beq_iff_eq, ih, List.cons_append,
        List.cons.injEq]
      constructor
      · rintro ⟨hcd, r, hr⟩
        exact ⟨r, hcd.symm, hr⟩
      · rintro ⟨r, hdc, hr⟩
        exact ⟨hdc.symm, r, hr⟩

theorem isPrefixOf_of_append_eq {p s r : List Char} (h : s = p ++ r) :
    p.isPrefixOf s = true :=
  isPrefixOf_iff_exists.mpr ⟨r, h⟩

theorem occursB_of_isPrefixOf {p s : List Char} (h : p.isPrefixOf s = true) :
    occursB p s = true := by
  cases s with
  | nil => simpa [occursB] using h
  | cons c cs => simp [occursB, h]

theorem occursB_cons_false {p : List Char} {c : Char} {cs : List Char}
    (h : occursB p (c :: cs) = false) :
    p.isPrefixOf (c :: cs) = false ∧ occursB p cs = false := by
  simpa [occursB] using h

theorem isPrefixOf_append_right {p s b : List Char} (h : p.isPrefixOf s = true) :
    p.isPrefixOf (s ++ b) = true := by
  obtain ⟨r, hr⟩ := isPrefixOf_iff_exists.mp h
  subst hr
  exact isPrefixOf_of_append_eq (List.append_assoc p r b)

theorem occursB_append_of_left {p a : List Char} (b : List Char)
    (h : occursB p a = true) : occursB p (a ++ b) = true := by
  induction a with
  | nil =>
    simp only [occursB] at h
    exact occursB_of_isPrefixOf (isPrefixOf_append_right h)
  | cons c cs ih =>
    simp only [occursB, Bool.or_eq_true] at h ⊢
    rcases h with h | h
    · exact Or.inl (isPrefixOf_append_right h)
    · exact Or.inr (ih h)

theorem occursB_append_of_right {p b : List Char} (a : List Char)
    (h : occursB p b = true) : occursB p (a ++ b) = true := by
  induction a with
  | nil => simpa using h
  | cons c cs ih => simp [occursB, ih]

theorem occursB_append_false {p a b : List Char} (h : occursB p (a ++ b) = false) :
    occursB p a = false ∧ occursB p b = false := by
  constructor
  · by_contra hc
    rw [Bool.not_eq_false] at hc
    rw [occursB_append_of_left b hc] at h
    simp at h
  · by_contra hc
    rw [Bool.not_eq_false] at hc
    rw [occursB_append_of_right a hc] at h
    simp at h

theorem occursB_dropWhile_false {p s : List Char} (q : Char → Bool)
    (h : occursB p s = false) : occursB p (s.dropWhile q) = false := by
  induction s with
  | nil => simpa using h
  | cons c cs ih =>
    obtain ⟨h1, h2⟩ := occursB_cons_false h
    by_cases hq : q c
    · rw [List.dropWhile_cons_of_pos hq]
      exact ih h2
    · rw [List.dropWhile_cons_of_neg hq]
      exact h

theorem occursB_take_drop_false {p s : List Char} (k : Nat)
    (h : occursB p s = false) :
    occursB p (s.take k) = false ∧ occursB p (s.drop k) = false := by
  have hs : s.take k ++ s.drop k = s := List.take_append_drop k s
  rw [← hs] at h
  exact occursB_append_false h

/-- An occurrence of `p ++ q` contains an occurrence of `p`. -/
theorem occursB_false_of_append {p q s : List Char} (h : occursB p s = false) :
    occursB (p ++ q) s = false := by
  induction s with
  | nil =>
    simp only [occursB] at h ⊢
    cases p with
    | nil => simp [List.isPrefixOf] at h
    | cons c cs => simp [List.isPrefixOf]
  | cons c cs ih =>
    obtain ⟨h1, h2⟩ := occursB_cons_false h
    simp only [occursB, Bool.or_eq_false_iff]
    refine ⟨?_, ih h2⟩
    by_contra hc
    rw [Bool.not_eq_false] at hc
    obtain ⟨r, hr⟩ := isPrefixOf_iff_exists.mp hc
    have hp : p.isPrefixOf (c :: cs) = true :=
      isPrefixOf_of_append_eq (by rw [hr, List.append_assoc])
    rw [hp] at h1
    exact absurd h1 (by simp)

theorem prefix_append_split {p u v : List Char} (h : p.isPrefixOf (u ++ v) = true) :
    p.isPrefixOf u = true
    ∨ (u.isPrefixOf p = true ∧ (p.drop u.length).isPrefixOf v = true) := by
  induction u generalizing p with
  | nil =>
    right
    constructor
    · simp [List.isPrefixOf]
    · simpa using h
  | cons a u2 ih =>
    cases p with
    | nil => left; simp [List.isPrefixOf]
    | cons b p2 =>
      simp only [List.cons_append, List.isPrefixOf, Bool.and_eq_true, beq_iff_eq] at h
      obtain ⟨hba, hrest⟩ := h
      rcases ih hrest with hl | ⟨hu, hd⟩
      · left
        simp [List.isPrefixOf, hba, hl]
      · right
        refine ⟨by simp [List.isPrefixOf, hba.symm, hu], ?_⟩
        simpa using hd

/-! ### Scanner lemmas -/

theorem dropLit_some_iff {lit s r : List Char} :
    dropLit lit s = some r ↔ s = lit ++ r := by
  induction lit generalizing s with
  | nil => simp [dropLit, eq_comm]
  | cons p ps ih =>
    cases s with
    | nil => simp [dropLit]
    | cons c cs =>
      simp only [dropLit, List.cons_append, List.cons.injEq]
      by_cases hc : c = p
      · rw [if_pos hc, ih]
        constructor
        · intro hr; exact ⟨hc, hr⟩
        · intro hr; exact hr.2
      · rw [if_neg hc]
        constructor
        · intro hctr; exact absurd hctr (by simp)
        · intro hctr; exact absurd hctr.1 hc

theorem dropLit_none_of_not_isPrefixOf {lit s : List Char}
    (h : lit.isPrefixOf s = false) : dropLit lit s = none := by
  cases hd : dropLit lit s with
  | none => rfl
  | some r =>
    rw [dropLit_some_iff.mp hd] at h
    rw [isPrefixOf_append_self] at h
    simp at h

theorem dropLit_some_isPrefixOf {lit s r : List Char}
    (h : dropLit lit s = some r) : lit.isPrefixOf s = true := by
  rw [dropLit_some_iff.mp h]
  exact isPrefixOf_append_self _ _

theorem scanQuote_append_no_quote {a : List Char} (b : List Char)
    (h : ∀ c ∈ a, c ≠ '"') : scanQuote (a ++ '"' :: b) = some b := by
  induction a with
  | nil => simp [scanQuote]
  | cons c cs ih =>
    have hc : c ≠ '"' := h c (by simp)
    simp only [List.cons_append, scanQuote, if_neg hc]
    exact ih (fun x hx => h x (by simp [hx]))

theorem scanQuote_some_length {s r : List Char} (h : scanQuote s = some r) :
    r.length < s.length := by
  induction s generalizing r with
  | nil => simp [scanQuote] at h
  | cons c cs ih =>
    simp only [scanQuote] at h
    by_cases hc : c = '"'
    · rw [if_pos hc] at h
      cases h
      simp
    · rw [if_neg hc] at h
      have := ih h
      simp
      omega

theorem digitChar_ne_quote (n : Nat) : digitChar n ≠ '"' := by
  unfold digitChar
  split <;> decide

theorem natCharsAux_ne_quote : ∀ (f n : Nat), ∀ c ∈ natCharsAux f n, c ≠ '"' := by
  intro f
  induction f with
  | zero => intro n c hc; simp [natCharsAux] at hc
  | succ f ih =>
    intro n c hc
    simp only [natCharsAux] at hc
    by_cases hn : n < 10
    · rw [if_pos hn] at hc
      simp only [List.mem_singleton] at hc
      subst hc
      exact digitChar_ne_quote n
    · rw [if_neg hn] at hc
      rcases List.mem_append.mp hc with hm | hm
      · exact ih (n / 10) c hm
      · simp only [List.mem_singleton] at hm
        subst hm
        exact digitChar_ne_quote (n % 10)

theorem natChars_ne_quote (n : Nat) : ∀ c ∈ natChars n, c ≠ '"' :=
  natCharsAux_ne_quote (n + 1) n

/-- `tryAttr` only looks at the whitespace-stripped input. -/
theorem tryAttr_cons_ws {lit : List Char} {c : Char} (s : List Char)
    (h : isWsChar c = true) : tryAttr lit (c :: s) = tryAttr lit s := by
  simp only [tryAttr, List.dropWhile_cons_of_pos h]

theorem tryAttr_some_occurs {lit s r : List Char} (h : tryAttr lit s = some r) :
    occursB lit s = true := by
  simp only [tryAttr] at h
  cases hd : dropLit lit (s.dropWhile isWsChar) with
  | none => rw [hd] at h; simp at h
  | some r2 =>
    have hp := dropLit_some_isPrefixOf hd
    have hocc : occursB lit (s.dropWhile isWsChar) = true := occursB_of_isPrefixOf hp
    by_contra hc
    rw [Bool.not_eq_true] at hc
    rw [occursB_dropWhile_false isWsChar hc] at hocc
    simp at hocc

theorem tryAttr_none_of_no_occ {lit s : List Char} (h : occursB lit s = false) :
    tryAttr lit s = none := by
  cases ht : tryAttr lit s with
  | none => rfl
  | some r => rw [tryAttr_some_occurs ht] at h; simp at h

theorem tryAttr_some_length {lit s r : List Char} (h : tryAttr lit s = some r) :
    r.length + lit.length < s.length + 1 := by
  simp only [tryAttr] at h
  cases hd : dropLit lit (s.dropWhile isWsChar) with
  | none => rw [hd] at h; simp at h
  | some r2 =>
    rw [hd] at h
    have h1 : s.dropWhile isWsChar = lit ++ r2 := dropLit_some_iff.mp hd
    have h2 : r.length < r2.length := scanQuote_some_length h
    have h3 : (s.dropWhile isWsChar).length ≤ s.length :=
      (List.dropWhile_sublist _).length_le
    rw [h1] at h3
    simp only [List.length_append] at h3
    omega

theorem remAttr_fuel {lit : List Char} (hlit : lit ≠ []) :
    ∀ (f1 : Nat) (s : List Char) (f2 : Nat), s.length ≤ f1 → s.length ≤ f2 →
      remAttr lit f1 s = remAttr lit f2 s := by
  intro f1
  induction f1 with
  | zero =>
    intro s f2 h1 _
    have hs : s = [] := List.eq_nil_of_length_eq_zero (Nat.le_zero.mp h1)
    subst hs
    cases f2 <;> rfl
  | succ f ih =>
    intro s f2 h1 h2
    cases s with
    | nil => cases f2 <;> rfl
    | cons c cs =>
      cases f2 with
      | zero => simp at h2
      | succ f3 =>
        simp only [remAttr]
        cases ht : tryAttr lit (c :: cs) with
        | some r =>
          have hlen := tryAttr_some_length ht
          have hl : 1 ≤ lit.length := by
            cases lit with
            | nil => exact absurd rfl hlit
            | cons a as => simp
          simp only [List.length_cons] at h1 h2 hlen
          exact ih r f3 (by omega) (by omega)
        | none =>
          simp only [List.length_cons] at h1 h2
          rw [ih cs f3 (by omega) (by omega)]

theorem litDL_ne_nil : litDL ≠ [] := by decide

theorem litCE_ne_nil : litCE ≠ [] := by decide

theorem removeDL_cons_none {c : Char} {cs : List Char}
    (h : tryAttr litDL (c :: cs) = none) : removeDL (c :: cs) = c :: removeDL cs := by
  simp only [removeDL, List.length_cons, remAttr, h]

theorem removeDL_cons_some {c : Char} {cs r : List Char}
    (h : tryAttr litDL (c :: cs) = some r) : removeDL (c :: cs) = removeDL r := by
  have hlen := tryAttr_some_length h
  simp only [removeDL, List.length_cons, remAttr, h]
  exact remAttr_fuel litDL_ne_nil cs.length r r.length (by
      have : (11 : Nat) ≤ litDL.length := by decide
      simp only [List.length_cons] at hlen
      omega)
    (le_refl _)

theorem remAttr_no_occ {lit : List Char} :
    ∀ (f : Nat) (s : List Char), occursB lit s = false → remAttr lit f s = s := by
  intro f
  induction f with
  | zero => intro s _; cases s <;> rfl
  | succ f ih =>
    intro s hs
    cases s with
    | nil => rfl
    | cons c cs =>
      obtain ⟨h1, h2⟩ := occursB_cons_false hs
      simp only [remAttr, tryAttr_none_of_no_occ hs]
      rw [ih cs h2]

theorem removeDL_no_occ {s : List Char} (h : occursB litDL s = false) :
    removeDL s = s := remAttr_no_occ s.length s h

theorem removeCE_no_occ {s : List Char} (h : occursB litCE s = false) :
    removeCE s = s := remAttr_no_occ s.length s h

/-! ### Round-trip core: no marker match can start inside original text -/

theorem dropWhile_append_of_all {q : Char → Bool} {a : List Char} (b : List Char)
    (h : ∀ x ∈ a, q x = true) : (a ++ b).dropWhile q = b.dropWhile q := by
  induction a with
  | nil => rfl
  | cons c cs ih =>
    have hc : q c = true := h c (by simp)
    rw [List.cons_append, List.dropWhile_cons_of_pos hc]
    exact ih (fun x hx => h x (by simp [hx]))

theorem dropWhile_append_of_ne_nil {q : Char → Bool} {a : List Char} (b : List Char)
    (h : a.dropWhile q ≠ []) : (a ++ b).dropWhile q = a.dropWhile q ++ b := by
  induction a with
  | nil => exact absurd rfl h
  | cons c cs ih =>
    by_cases hc : q c = true
    · rw [List.dropWhile_cons_of_pos hc] at h ⊢
      rw [List.cons_append, List.dropWhile_cons_of_pos hc]
      exact ih h
    · rw [List.dropWhile_cons_of_neg (by simpa using hc)] at h ⊢
      rw [List.cons_append, List.dropWhile_cons_of_neg (by simpa using hc)]

/-- A match of the marker regex cannot start anywhere inside `m ++ rest`
at an offset of `m`, when `m` contains no occurrence of the literal, a
match cannot start at `rest` itself (or `m` does not vanish under the
whitespace run), and `rest` does not begin with a character of the
literal. -/
theorem tryAttr_append_none {m rest : List Char}
    (h1 : occursB litDL m = false)
    (h2 : m.dropWhile isWsChar = [] → tryAttr litDL rest = none)
    (h3 : ∀ d, rest.head? = some d → d ∉ litDL) :
    tryAttr litDL (m ++ rest) = none := by
  by_cases hm : m.dropWhile isWsChar = []
  · have hws : ∀ x ∈ m, isWsChar x = true := List.dropWhile_eq_nil_iff.mp hm
    have hd : (m ++ rest).dropWhile isWsChar = rest.dropWhile isWsChar :=
      dropWhile_append_of_all rest hws
    simp only [tryAttr, hd]
    have hr := h2 hm
    simpa only [tryAttr] using hr
  · have hsplit : (m ++ rest).dropWhile isWsChar = m.dropWhile isWsChar ++ rest :=
      dropWhile_append_of_ne_nil rest hm
    have hu_occ : occursB litDL (m.dropWhile isWsChar) = false :=
      occursB_dropWhile_false _ h1
    simp only [tryAttr, hsplit]
    cases hdl : dropLit litDL (m.dropWhile isWsChar ++ rest) with
    | none => rfl
    | some r =>
      exfalso
      have hp : litDL.isPrefixOf (m.dropWhile isWsChar ++ rest) = true :=
        dropLit_some_isPrefixOf hdl
      rcases prefix_append_split hp with hl | ⟨hup, hdrop⟩
      · rw [occursB_of_isPrefixOf hl] at hu_occ
        simp at hu_occ
      · cases hdd : litDL.drop (m.dropWhile isWsChar).length with
        | nil =>
          have hlenle : litDL.length ≤ (m.dropWhile isWsChar).length :=
            List.drop_eq_nil_iff.mp hdd
          obtain ⟨w, hw⟩ := isPrefixOf_iff_exists.mp hup
          have hwlen : w = [] := by
            have := congrArg List.length hw
            simp only [List.length_append] at this
            have : w.length = 0 := by omega
            exact List.eq_nil_of_length_eq_zero this
          rw [hwlen, List.append_nil] at hw
          rw [← hw] at hu_occ
          rw [occursB_of_isPrefixOf (isPrefixOf_of_append_eq
            (show litDL = litDL ++ [] by simp))] at hu_occ
          simp at hu_occ
        | cons d ds =>
          rw [hdd] at hdrop
          have hrest_head : rest.head? = some d := by
            obtain ⟨r2, hr2⟩ := isPrefixOf_iff_exists.mp hdrop
            rw [hr2]
            rfl
          have hd_mem : d ∈ litDL := by
            have hmem : d ∈ litDL.drop (m.dropWhile isWsChar).length := by
              rw [hdd]; simp
            exact List.mem_of_mem_drop hmem
          exact h3 d hrest_head hd_mem

/-- Scanning a marker-free block before a boundary-safe remainder keeps it
verbatim. -/
theorem removeDL_scan_mid : ∀ (m rest : List Char),
    occursB litDL m = false → tryAttr litDL rest = none →
    (∀ d, rest.head? = some d → d ∉ litDL) →
    removeDL (m ++ rest) = m ++ removeDL rest
    ∧ tryAttr litDL (m ++ rest) = none := by
  intro m
  induction m with
  | nil => intro rest _ h2 _; exact ⟨rfl, h2⟩
  | cons c cs ih =>
    intro rest h1 h2 h3
    obtain ⟨_, hcs⟩ := occursB_cons_false h1
    have htail := ih rest hcs h2 h3
    have hfail : tryAttr litDL ((c :: cs) ++ rest) = none :=
      tryAttr_append_none h1 (fun _ => h2) h3
    constructor
    · have hfail2 : tryAttr litDL (c :: (cs ++ rest)) = none := hfail
      show removeDL (c :: (cs ++ rest)) = (c :: cs) ++ removeDL rest
      rw [removeDL_cons_none hfail2, htail.1]
      rfl
    · exact hfail

/-- Scanning the marker-free prefix that ends in the (non-whitespace) tag
name character keeps it verbatim, whatever follows, provided the remainder
does not begin with a character of the literal. -/
theorem removeDL_scan_pre : ∀ (A : List Char) (lc : Char) (Z : List Char),
    isWsChar lc = false → occursB litDL (A ++ [lc]) = false →
    (∀ d, Z.head? = some d → d ∉ litDL) →
    removeDL ((A ++ [lc]) ++ Z) = (A ++ [lc]) ++ removeDL Z
    ∧ tryAttr litDL ((A ++ [lc]) ++ Z) = none := by
  intro A
  induction A with
  | nil =>
    intro lc Z hlc h1 h3
    have hfail : tryAttr litDL ([lc] ++ Z) = none := by
      refine tryAttr_append_none h1 ?_ h3
      intro hctr
      have := List.dropWhile_eq_nil_iff.mp hctr lc (by simp)
      rw [this] at hlc
      simp at hlc
    refine ⟨?_, hfail⟩
    show removeDL (lc :: Z) = lc :: removeDL Z
    exact removeDL_cons_none hfail
  | cons c A2 ih =>
    intro lc Z hlc h1 h3
    obtain ⟨_, hrest⟩ := occursB_cons_false h1
    have hfail : tryAttr litDL ((c :: A2 ++ [lc]) ++ Z) = none := by
      refine tryAttr_append_none h1 ?_ h3
      intro hctr
      have := List.dropWhile_eq_nil_iff.mp hctr lc (by simp)
      rw [this] at hlc
      simp at hlc
    have hih := ih lc Z hlc hrest h3
    refine ⟨?_, hfail⟩
    have hfail2 : tryAttr litDL (c :: ((A2 ++ [lc]) ++ Z)) = none := hfail
    show removeDL (c :: ((A2 ++ [lc]) ++ Z)) = (c :: (A2 ++ [lc])) ++ removeDL Z
    rw [removeDL_cons_none hfail2, hih.1]
    rfl

/-- The injected attribute is matched exactly: the single leading space,
the literal, the line-number digits, the closing quote. -/
theorem tryAttr_injText (n : Nat) (W : List Char) :
    tryAttr litDL (injText n ++ W) = some W := by
  have hform : injText n ++ W = ' ' :: (litDL ++ (natChars n ++ '"' :: W)) := by
    simp [injText]
  rw [hform, tryAttr_cons_ws _ (by decide)]
  have hdw : (litDL ++ (natChars n ++ '"' :: W)).dropWhile isWsChar
      = litDL ++ (natChars n ++ '"' :: W) := by
    rw [show litDL ++ (natChars n ++ '"' :: W)
        = 'd' :: (['a', 't', 'a', '-', 'l', 'i', 'n', 'e', '=', '"']
            ++ (natChars n ++ '"' :: W)) from rfl]
    rw [List.dropWhile_cons_of_neg (by decide)]
  simp only [tryAttr, hdw]
  rw [show dropLit litDL (litDL ++ (natChars n ++ '"' :: W))
      = some (natChars n ++ '"' :: W) from dropLit_some_iff.mpr rfl]
  exact scanQuote_append_no_quote W (natChars_ne_quote n)

theorem firstTagMatch_spec : ∀ {l t : List Char}, firstTagMatch l = some t →
    t ≠ [] ∧ ∀ c ∈ t, isAlnumChar c = true := by
  intro l
  induction l with
  | nil => intro t h; simp [firstTagMatch] at h
  | cons c cs ih =>
    intro t h
    simp only [firstTagMatch] at h
    by_cases hc : c = '<'
    · rw [if_pos hc] at h
      cases cs with
      | nil => simp at h
      | cons d ds =>
        have h2 : (if isAlphaChar d = true then some (d :: ds.takeWhile isAlnumChar)
            else firstTagMatch (d :: ds)) = some t := h
        by_cases hd : isAlphaChar d = true
        · rw [if_pos hd] at h2
          have ht : t = d :: ds.takeWhile isAlnumChar := by
            cases h2
            rfl
          subst ht
          refine ⟨by simp, ?_⟩
          intro x hx
          rcases List.mem_cons.mp hx with hx | hx
          · subst hx
            simp [isAlnumChar, hd]
          · exact List.mem_takeWhile_imp hx
        · rw [if_neg hd] at h2
          exact ih h2
    · rw [if_neg hc] at h
      exact ih h

theorem indexOfSub_isPrefixOf_drop : ∀ {s pat : List Char} {k : Nat},
    indexOfSub s pat = some k → pat.isPrefixOf (s.drop k) = true := by
  intro s
  induction s with
  | nil =>
    intro pat k h
    by_cases hp : pat = []
    · subst hp
      have hk : k = 0 := by simpa [indexOfSub] using h.symm
      subst hk
      simp [List.isPrefixOf]
    · rw [show indexOfSub [] pat = none from by simp [indexOfSub, hp]] at h
      simp at h
  | cons c cs ih =>
    intro pat k h
    simp only [indexOfSub] at h
    by_cases hp : pat.isPrefixOf (c :: cs) = true
    · rw [if_pos hp] at h
      cases h
      simpa using hp
    · rw [if_neg (by simpa using hp)] at h
      obtain ⟨k2, hk2, hk⟩ := Option.map_eq_some'.mp h
      subst hk
      rw [List.drop_succ_cons]
      exact ih hk2

theorem alnum_not_ws {c : Char} (h : isAlnumChar c = true) : isWsChar c = false := by
  cases hw : isWsChar c with
  | false => rfl
  | true =>
    exfalso
    simp only [isWsChar, Bool.or_eq_true, decide_eq_true_eq] at hw
    rcases hw with (((((h1 | h1) | h1) | h1) | h1) | h1) <;>
      (subst h1; exact absurd h (by decide))

theorem space_not_mem_litDL : ∀ d, (injText 0).head? = some d → d ∉ litDL := by
  decide

/-- C6 key step: running the marker-removal scanner over one injected line
followed by a boundary-safe remainder restores the original line. -/
theorem removeDL_injectLine (l : List Char) (n : Nat) (rest : List Char)
    (h10 : occursB ("data-line=".toList) l = false)
    (hrest : tryAttr litDL rest = none)
    (hresthd : ∀ d, rest.head? = some d → d ∉ litDL) :
    removeDL (injectLine n l ++ rest) = l ++ removeDL rest
    ∧ tryAttr litDL (injectLine n l ++ rest) = none := by
  have hlit : occursB litDL l = false := by
    rw [show litDL = "data-line=".toList ++ ['"'] from rfl]
    exact occursB_false_of_append h10
  cases hm : firstTagMatch l with
  | none =>
    have hinj : injectLine n l = l := by
      simp [injectLine, h10, hm]
    rw [hinj]
    exact removeDL_scan_mid l rest hlit hrest hresthd
  | some tagName =>
    by_cases hexc : lowerS tagName ∈ excludedTags
    · have hinj : injectLine n l = l := by
        simp [injectLine, h10, hm, hexc]
      rw [hinj]
      exact removeDL_scan_mid l rest hlit hrest hresthd
    · cases hidx : indexOfSub l ('<' :: tagName) with
      | none =>
        have hinj : injectLine n l = l := by
          simp [injectLine, h10, hm, hexc, hidx]
        rw [hinj]
        exact removeDL_scan_mid l rest hlit hrest hresthd
      | some tagStart =>
        by_cases hca : ((l.drop (tagStart + 1 + tagName.length)).head? = none
            ∨ (l.drop (tagStart + 1 + tagName.length)).head? = some ' '
            ∨ (l.drop (tagStart + 1 + tagName.length)).head? = some '>'
            ∨ (l.drop (tagStart + 1 + tagName.length)).head? = some '\t'
            ∨ (l.drop (tagStart + 1 + tagName.length)).head? = some '\n')
        · -- injection happens
          have hinj : injectLine n l
              = l.take (tagStart + 1 + tagName.length) ++ injText n
                ++ l.drop (tagStart + 1 + tagName.length) := by
            simp only [injectLine, h10, Bool.false_eq_true, if_false, hm, hidx]
            rw [if_neg hexc, if_pos hca]
          -- structure of the line around the injection point
          obtain ⟨htne, htal⟩ := firstTagMatch_spec hm
          have hdrop1 : ('<' :: tagName).isPrefixOf (l.drop tagStart) = true :=
            indexOfSub_isPrefixOf_drop hidx
          obtain ⟨w, hw⟩ := isPrefixOf_iff_exists.mp hdrop1
          have htsle : tagStart ≤ l.length := by
            by_contra hover
            have : l.drop tagStart = [] := List.drop_eq_nil_iff.mpr (by omega)
            rw [this] at hw
            simp at hw
          have hlen_take : (l.take tagStart).length = tagStart := by
            rw [List.length_take]
            omega
          have hl : l = l.take tagStart ++ ('<' :: (tagName ++ w)) := by
            conv_lhs => rw [← List.take_append_drop tagStart l]
            rw [hw]
            rfl
          have hpre : l.take (tagStart + 1 + tagName.length)
              = l.take tagStart ++ '<' :: tagName := by
            conv_lhs => rw [hl]
            rw [show tagStart + 1 + tagName.length
                = (l.take tagStart).length + (tagName.length + 1) by rw [hlen_take]; omega]
            rw [List.take_append]
            rw [List.take_succ_cons]
            rw [show (tagName ++ w).take tagName.length = tagName from List.take_left _ _]
          have hsuf : l.drop (tagStart + 1 + tagName.length) = w := by
            conv_lhs => rw [hl]
            rw [show tagStart + 1 + tagName.length
                = (l.take tagStart).length + (tagName.length + 1) by rw [hlen_take]; omega]
            rw [List.drop_append]
            rw [List.drop_succ_cons]
            rw [show (tagName ++ w).drop tagName.length = w from List.drop_left _ _]
          -- the prefix ends with the (alphanumeric) last tag-name character
          rcases List.eq_nil_or_concat tagName with hnil | ⟨ts, lc, hcat⟩
          · exact absurd hnil htne
          rw [List.concat_eq_append] at hcat
          have hlc_alnum : isAlnumChar lc = true := htal lc (by rw [hcat]; simp)
          have hlc_ws : isWsChar lc = false := alnum_not_ws hlc_alnum
          have hpreA : l.take (tagStart + 1 + tagName.length)
              = (l.take tagStart ++ '<' :: ts) ++ [lc] := by
            rw [hpre, hcat]
            simp [List.append_assoc]
          have hocc_pre : occursB litDL (l.take (tagStart + 1 + tagName.length)) = false :=
            (occursB_take_drop_false _ hlit).1
          have hocc_suf : occursB litDL (l.drop (tagStart + 1 + tagName.length)) = false :=
            (occursB_take_drop_false _ hlit).2
          have hZhd : ∀ d, (injText n ++ (l.drop (tagStart + 1 + tagName.length)
              ++ rest)).head? = some d → d ∉ litDL := by
            intro d hd
            have hds : ' ' = d := by
              rw [show injText n ++ (l.drop (tagStart + 1 + tagName.length) ++ rest)
                  = ' ' :: (litDL ++ natChars n ++ ['"']
                    ++ (l.drop (tagStart + 1 + tagName.length) ++ rest)) from by
                simp [injText]] at hd
              simpa using hd
            rw [← hds]
            decide
          have hassoc : injectLine n l ++ rest
              = ((l.take tagStart ++ '<' :: ts) ++ [lc])
                ++ (injText n ++ (l.drop (tagStart + 1 + tagName.length) ++ rest)) := by
            rw [hinj, hpreA]
            simp [List.append_assoc]
          have hocc_preA : occursB litDL ((l.take tagStart ++ '<' :: ts) ++ [lc]) = false := by
            rw [← hpreA]
            exact hocc_pre
          have hstep1 := removeDL_scan_pre (l.take tagStart ++ '<' :: ts) lc
            (injText n ++ (l.drop (tagStart + 1 + tagName.length) ++ rest))
            hlc_ws hocc_preA hZhd
          have hstep2 : removeDL (injText n
              ++ (l.drop (tagStart + 1 + tagName.length) ++ rest))
              = removeDL (l.drop (tagStart + 1 + tagName.length) ++ rest) := by
            have hform : injText n ++ (l.drop (tagStart + 1 + tagName.length) ++ rest)
                = ' ' :: ((litDL ++ natChars n ++ ['"'])
                  ++ (l.drop (tagStart + 1 + tagName.length) ++ rest)) := by
              simp [injText]
            have htry : tryAttr litDL (' ' :: ((litDL ++ natChars n ++ ['"'])
                ++ (l.drop (tagStart + 1 + tagName.length) ++ rest)))
                = some (l.drop (tagStart + 1 + tagName.length) ++ rest) := by
              rw [← hform]
              exact tryAttr_injText n _
            rw [hform, removeDL_cons_some htry]
          have hstep3 := removeDL_scan_mid (l.drop (tagStart + 1 + tagName.length)) rest
            hocc_suf hrest hresthd
          constructor
          · rw [hassoc, hstep1.1, hstep2, hstep3.1]
            rw [← hpreA]
            rw [← List.append_assoc, List.take_append_drop]
          · rw [hassoc]
            exact hstep1.2
        · have hinj : injectLine n l = l := by
            simp only [injectLine, h10, Bool.false_eq_true, if_false, hm, hidx]
            rw [if_neg hexc, if_neg hca]
          rw [hinj]
          exact removeDL_scan_mid l rest hlit hrest hresthd

theorem splitNl_ne_nil : ∀ s : List Char, splitNl s ≠ [] := by
  intro s
  cases s with
  | nil => simp [splitNl]
  | cons c cs =>
    simp only [splitNl]
    by_cases hc : c = '\n'
    · rw [if_pos hc]; simp
    · rw [if_neg hc]
      cases h : splitNl cs <;> simp

theorem joinNl_split : ∀ s : List Char, joinNl (splitNl s) = s := by
  intro s
  induction s with
  | nil => rfl
  | cons c cs ih =>
    simp only [splitNl]
    by_cases hc : c = '\n'
    · rw [if_pos hc]
      subst hc
      cases h : splitNl cs with
      | nil => exact absurd h (splitNl_ne_nil cs)
      | cons h1 t1 =>
        show [] ++ '\n' :: joinNl (h1 :: t1) = '\n' :: cs
        rw [← h, ih]
        rfl
    · rw [if_neg hc]
      cases h : splitNl cs with
      | nil => exact absurd h (splitNl_ne_nil cs)
      | cons h1 t1 =>
        cases t1 with
        | nil =>
          show c :: h1 = c :: cs
          rw [show h1 = cs from by rw [← ih, h]; rfl]
        | cons h2 t2 =>
          show (c :: h1) ++ '\n' :: joinNl (h2 :: t2) = c :: cs
          rw [show cs = joinNl (splitNl cs) from ih.symm, h]
          rfl

theorem occursB_joinNl {p : List Char} : ∀ {ls : List (List Char)},
    occursB p (joinNl ls) = false → ∀ l ∈ ls, occursB p l = false := by
  intro ls
  induction ls with
  | nil => intro _ l hl; simp at hl
  | cons a ls2 ih =>
    intro h l hl
    cases ls2 with
    | nil =>
      have hla : l = a := by simpa using hl
      subst hla
      exact h
    | cons b t =>
      have hsplit : joinNl (a :: b :: t) = a ++ '\n' :: joinNl (b :: t) := rfl
      rw [hsplit] at h
      obtain ⟨ha, hrest⟩ := occursB_append_false h
      obtain ⟨_, htail⟩ := occursB_cons_false hrest
      rcases List.mem_cons.mp hl with hl1 | hl2
      · rw [hl1]; exact ha
      · exact ih htail l hl2

theorem tryAttr_nil {lit : List Char} (h : lit ≠ []) : tryAttr lit [] = none := by
  simp only [tryAttr, List.dropWhile_nil]
  rw [dropLit_none_of_not_isPrefixOf]
  cases lit with
  | nil => exact absurd rfl h
  | cons a as => simp [List.isPrefixOf]

/-- C6 main induction: removing the markers from the joined injected lines
restores the joined original lines. -/
theorem removeDL_injectAll : ∀ (ls : List (List Char)) (n : Nat),
    (∀ l ∈ ls, occursB ("data-line=".toList) l = false) →
    removeDL (joinNl (injectAll n ls)) = joinNl ls
    ∧ tryAttr litDL (joinNl (injectAll n ls)) = none := by
  intro ls
  induction ls with
  | nil =>
    intro n _
    exact ⟨rfl, tryAttr_nil litDL_ne_nil⟩
  | cons l ls2 ih =>
    intro n hocc
    have hl : occursB ("data-line=".toList) l = false := hocc l (by simp)
    cases ls2 with
    | nil =>
      have hline := removeDL_injectLine l n [] hl (tryAttr_nil litDL_ne_nil)
        (fun d hd => by simp at hd)
      constructor
      · show removeDL (injectLine n l) = l
        have h1 := hline.1
        rw [List.append_nil] at h1
        rw [h1, show removeDL [] = [] from rfl, List.append_nil]
      · show tryAttr litDL (injectLine n l) = none
        have h2 := hline.2
        rwa [List.append_nil] at h2
    | cons l2 ls3 =>
      have hocc2 : ∀ m ∈ l2 :: ls3, occursB ("data-line=".toList) m = false :=
        fun m hm => hocc m (by simp [hm])
      have hD := ih (n + 1) hocc2
      have hrest : tryAttr litDL ('\n' :: joinNl (injectAll (n + 1) (l2 :: ls3))) = none := by
        rw [tryAttr_cons_ws _ (by decide)]
        exact hD.2
      have hresthd : ∀ d, ('\n' :: joinNl (injectAll (n + 1) (l2 :: ls3))).head? = some d →
          d ∉ litDL := by
        intro d hd
        have hdn : '\n' = d := by simpa using hd
        rw [← hdn]
        decide
      have hline := removeDL_injectLine l n
        ('\n' :: joinNl (injectAll (n + 1) (l2 :: ls3))) hl hrest hresthd
      have hjoin : joinNl (injectAll n (l :: l2 :: ls3))
          = injectLine n l ++ '\n' :: joinNl (injectAll (n + 1) (l2 :: ls3)) := rfl
      constructor
      · rw [hjoin, hline.1, removeDL_cons_none hrest, hD.1]
        rfl
      · rw [hjoin]
        exact hline.2

/-- C6 (amended): for every document that contains no pre-existing marker
fragment `data-line=` (the code's own idempotence test) and no editor
attribute fragment `contenteditable=`, sanitizing the indexed document
restores it byte for byte: `sanitize(index(x)) = x`.  (The sanitizer also
strips `contenteditable` attributes the indexer never inserts, so the
second hypothesis cannot be dropped — see the counterexample.) -/
theorem sanitize_index_round_trip :
    ∀ (x : List Char), occursB ("data-line=".toList) x = false →
      occursB ("contenteditable=".toList) x = false →
      removeEditorAttributes (injectLineNumbers x) = x := by
  intro x h1 h2
  have hlines : ∀ l ∈ splitNl x, occursB ("data-line=".toList) l = false := by
    intro l hl
    refine occursB_joinNl ?_ l hl
    rw [joinNl_split]
    exact h1
  have hmain := removeDL_injectAll (splitNl x) 1 hlines
  have hDL : removeDL (injectLineNumbers x) = x := by
    show removeDL (joinNl (injectAll 1 (splitNl x))) = x
    rw [hmain.1, joinNl_split]
  have hCE : removeCE x = x := by
    apply removeCE_no_occ
    rw [show litCE = "contenteditable=".toList ++ ['"'] from rfl]
    exact occursB_false_of_append h2
  simp only [removeEditorAttributes]
  by_cases hz : injectLineNumbers x = []
  · rw [if_pos hz]
    rw [hz] at hDL
    have hx : x = [] := by rw [← hDL]; rfl
    rw [hz, hx]
  · rw [if_neg hz, hDL, hCE]

theorem sanitize_index_round_trip_witness :
    occursB ("data-line=".toList) ("<ul>\n <li class=\"a\">hi</li>\n</ul>".toList) = false
    ∧ occursB ("contenteditable=".toList)
        ("<ul>\n <li class=\"a\">hi</li>\n</ul>".toList) = false
    ∧ removeEditorAttributes (injectLineNumbers
        ("<ul>\n <li class=\"a\">hi</li>\n</ul>".toList))
      = ("<ul>\n <li class=\"a\">hi</li>\n</ul>".toList) :=
  ⟨by decide, by decide,
    sanitize_index_round_trip ("<ul>\n <li class=\"a\">hi</li>\n</ul>".toList)
      (by decide) (by decide)⟩

/-- C6 counterexample: the sanitizer does not remove *only* what the
indexer inserts — on an input with no pre-existing marker it also strips a
pre-existing `contenteditable` attribute, so `sanitize(index(x)) ≠ x`. -/
theorem sanitize_strips_contenteditable :
    occursB ("data-line=".toList) ("<p contenteditable=\"true\">x</p>".toList) = false
    ∧ removeEditorAttributes (injectLineNumbers
        ("<p contenteditable=\"true\">x</p>".toList)) = ("<p>x</p>".toList)
    ∧ ("<p>x</p>".toList) ≠ ("<p contenteditable=\"true\">x</p>".toList) := by decide

end InlineEditor
